import Mathlib

/-!
Verification development for the redwood state-synchronization engine.

The Go sources are shallowly embedded: pure functions become Lean
functions, the mutable in-memory state tree becomes explicit state
passing over a `World` of backing stores (so that copy-on-write and
aliasing are observable), the controller and host become state
transformers.  Go `panic` calls are modelled as error returns, Go maps
as association lists, Go hash-map based sets as `Finset`/deduplicated
lists.  Cryptographic primitives and the byte-level hash are out of
scope of the repository (only a capability contract is specified) and
are therefore parameters of the embedding.
-/

set_option maxRecDepth 4000

namespace Redwood

/-! ## Keypaths

Modelled from the spec: `tree.Keypath` (tree/keypath.go is not part of
the sources): a `/`-separated byte string, here a list of segments; an
index segment is encoded with a reserved prefix byte followed by a
big-endian integer, here a dedicated constructor ordered before string
segments.  `Push` is concatenation, `StartsWith` is segment-aligned
prefix, `RelativeTo` strips a prefix (modelled as dropping the first
`root.length` segments), `Parts` lists the segments, and keypaths sort
lexicographically. -/

inductive Seg where
  | str : String → Seg
  | idx : Nat → Seg
deriving DecidableEq, Repr

abbrev Keypath := List Seg

def charLtb (a b : Char) : Bool := decide (a.toNat < b.toNat)

/-- strLtb is byte-wise lexicographic string comparison (Go compares
keypath bytes). -/
def strLtb : List Char → List Char → Bool
  | [], [] => false
  | [], _ :: _ => true
  | _ :: _, [] => false
  | a :: as, b :: bs =>
    if charLtb a b then true
    else if charLtb b a then false
    else strLtb as bs

def segLtb : Seg → Seg → Bool
  | .idx m, .idx n => decide (m < n)
  | .idx _, .str _ => true
  | .str _, .idx _ => false
  | .str s, .str t => strLtb s.data t.data

def kpLtb : Keypath → Keypath → Bool
  | [], [] => false
  | [], _ :: _ => true
  | _ :: _, [] => false
  | a :: as, b :: bs =>
    if segLtb a b then true
    else if segLtb b a then false
    else kpLtb as bs

/-- kpStartsWith k p holds when keypath `k` starts with the segments of `p`
(Go `Keypath.StartsWith`, segment aligned). -/
def kpStartsWith : Keypath → Keypath → Bool
  | _, [] => true
  | [], _ :: _ => false
  | a :: as, b :: bs => decide (a = b) && kpStartsWith as bs

/-- kpRelativeTo models Go `Keypath.RelativeTo(root)`: the keypath with the
`root` prefix stripped; on non-prefix inputs (which make the Go byte
slicing meaningless) it drops `root.length` segments. -/
def kpRelativeTo (k root : Keypath) : Keypath := k.drop root.length

def insSorted (kp : Keypath) : List Keypath → List Keypath
  | [] => [kp]
  | k :: ks => if kpLtb k kp then k :: insSorted kp ks else kp :: k :: ks

def sortKeypaths : List Keypath → List Keypath
  | [] => []
  | k :: ks => insSorted k (sortKeypaths ks)

/-! ## Ranges

Modelled from the spec: `tree.Range` (tree/range.go is not part of the
sources): a half-open interval `[start, stop)` over sequence indices;
validity requires `start ≤ stop`.  The Go field `End` is called `stop`
here because `end` is a Lean keyword. -/

structure Rng where
  start : Nat
  stop : Nat
deriving DecidableEq, Repr

def Rng.valid (r : Rng) : Bool := decide (r.start ≤ r.stop)

def Rng.size (r : Rng) : Nat := r.stop - r.start

def Rng.indicesForLength (r : Rng) (_l : Nat) : Nat × Nat := (r.start, r.stop)

def Rng.validForLength (r : Rng) (l : Nat) : Bool := r.valid && decide (r.stop ≤ l)

/-! ## Values

Go stores `interface{}` values of JSON shape; floats are omitted from
the model (no claim concerns them).  `vnull` doubles as the Go nil
interface, which is also what a JSON null leaf stores. -/

mutual

inductive GV where
  | vnull
  | vbool (b : Bool)
  | vint (n : Int)
  | vuint (n : Nat)
  | vstr (s : String)
  | vmap (entries : GEntries)
  | varr (elems : GList)

inductive GEntries where
  | nil
  | cons (key : String) (val : GV) (rest : GEntries)

inductive GList where
  | nil
  | cons (val : GV) (rest : GList)

end

def GList.length : GList → Nat
  | .nil => 0
  | .cons _ rest => rest.length + 1

inductive NodeType where
  | invalid
  | map
  | slice
  | value
deriving DecidableEq, Repr

inductive ValueType where
  | invalid
  | vstring
  | vint
  | vuint
  | vbool
  | vnil
deriving DecidableEq, Repr

/- walkGV models `walkGoValue`: emit one `(relative keypath, value)` pair
per node of the value, depth first, the root first with keypath nil. -/
mutual

def walkGV : GV → List (Keypath × GV)
  | .vmap entries => ([], .vmap entries) :: walkEntries entries
  | .varr elems => ([], .varr elems) :: walkElems 0 elems
  | v => [([], v)]

def walkEntries : GEntries → List (Keypath × GV)
  | .nil => []
  | .cons k cv rest =>
    (walkGV cv).map (fun p => (Seg.str k :: p.1, p.2)) ++ walkEntries rest

def walkElems : Nat → GList → List (Keypath × GV)
  | _, .nil => []
  | i, .cons cv rest =>
    (walkGV cv).map (fun p => (Seg.idx i :: p.1, p.2)) ++ walkElems (i + 1) rest

end

/-! ## Diff

Modelled from the spec: `tree.Diff` (tree/diff.go is not part of the
sources) tracks the sets of keypaths added and removed, can be toggled
off, and `Copy` duplicates it (a value copy here). -/

structure DiffSt where
  added : List Keypath
  removed : List Keypath
  enabled : Bool
deriving Repr

def emptyDiff : DiffSt := { added := [], removed := [], enabled := true }

def kpInsert (kp : Keypath) (l : List Keypath) : List Keypath :=
  if kp ∈ l then l else kp :: l

def DiffSt.addMany (d : DiffSt) (kps : List Keypath) : DiffSt :=
  if d.enabled then { d with added := kps.foldl (fun acc kp => kpInsert kp acc) d.added } else d

def DiffSt.removeMany (d : DiffSt) (kps : List Keypath) : DiffSt :=
  if d.enabled then { d with removed := kps.foldl (fun acc kp => kpInsert kp acc) d.removed } else d

/-! ## The in-memory store and nodes

`MemStore` holds the four parallel structures of a `MemoryNode`
(sorted keypath list, value map, node-kind map, slice-length map) plus
the diff.  Nodes are cursors referencing a store by index into a
`World`, so that sharing and copy-on-write are observable: `makeCopy`
allocates a fresh store and repoints the node at it. -/

structure MemStore where
  keypaths : List Keypath
  values : List (Keypath × GV)
  nodeTypes : List (Keypath × NodeType)
  sliceLengths : List (Keypath × Int)
  diff : DiffSt

def emptyStore : MemStore :=
  { keypaths := [], values := [], nodeTypes := [], sliceLengths := [], diff := emptyDiff }

def alGet {α : Type} : List (Keypath × α) → Keypath → Option α
  | [], _ => none
  | p :: rest, k => if p.1 = k then some p.2 else alGet rest k

def alErase {α : Type} : List (Keypath × α) → Keypath → List (Keypath × α)
  | [], _ => []
  | p :: rest, k => if p.1 = k then alErase rest k else p :: alErase rest k

def alPut {α : Type} (m : List (Keypath × α)) (k : Keypath) (v : α) : List (Keypath × α) :=
  (k, v) :: alErase m k

/-- ntGet reads the node-kind map; a missing key is the Go zero value
`NodeTypeInvalid`. -/
def ntGet (st : MemStore) (kp : Keypath) : NodeType :=
  (alGet st.nodeTypes kp).getD .invalid

/-- slGet reads the slice-length map; a missing key is the Go zero value 0. -/
def slGet (st : MemStore) (kp : Keypath) : Int :=
  (alGet st.sliceLengths kp).getD 0

structure NodeRef where
  sid : Nat
  keypath : Keypath
  rng : Option Rng
  copied : Bool

abbrev World := List MemStore

def getStore : World → Nat → Option MemStore
  | [], _ => none
  | s :: _, 0 => some s
  | _ :: w, n + 1 => getStore w n

def setStore : World → Nat → MemStore → World
  | [], _, _ => []
  | _ :: w, 0, st => st :: w
  | s :: w, n + 1, st => s :: setStore w n st

inductive TErr where
  | invalidRange
  | rangeOverNonSlice
  | unsupported
  | panicBad
  | err404
  | internal
deriving DecidableEq, Repr

/-- findFromIdx returns the first index at or after `n` whose element
satisfies `f`, mirroring the Go scan loops that return -1 (here none)
on failure. -/
def findFromIdx (kps : List Keypath) (n : Nat) (f : Keypath → Bool) : Option Nat :=
  match (kps.drop n).findIdx? f with
  | some j => some (n + j)
  | none => none

def findPrefixStart (kps : List Keypath) (n : Nat) (p : Keypath) : Option Nat :=
  if n ≥ kps.length then none
  else if p = [] then some 0
  else if kps.length = 0 then none
  else findFromIdx kps n (fun k => kpStartsWith k p)

def findPrefixEnd (kps : List Keypath) (n : Nat) (p : Keypath) : Option Nat :=
  if n ≥ kps.length then none
  else findFromIdx kps n (fun k => ! kpStartsWith k p)

def findPrefixRangeAux (p : Keypath) : List Keypath → Nat → Option Nat → Option (Nat × Nat)
  | [], _, none => none
  | [], n, some s => some (s, n)
  | k :: ks, i, none =>
    if kpStartsWith k p then findPrefixRangeAux p ks (i + 1) (some i)
    else findPrefixRangeAux p ks (i + 1) none
  | k :: ks, i, some s =>
    if kpStartsWith k p then findPrefixRangeAux p ks (i + 1) (some s)
    else some (s, i)

def findPrefixRange (kps : List Keypath) (p : Keypath) : Option (Nat × Nat) :=
  if p = [] then some (0, kps.length) else findPrefixRangeAux p kps 0 none

/-- addKeypaths mirrors `MemoryNode.addKeypaths`: sort the incoming
keypaths, find where their common region starts in the existing list,
append, and re-sort the suffix from that point. -/
def addKeypaths (kps : List Keypath) (newKps : List Keypath) : List Keypath :=
  match newKps with
  | [] => kps
  | _ =>
    let sorted := sortKeypaths newKps
    let kp0 := sorted.headD []
    let start := (findPrefixStart kps 0 kp0).getD 0
    let merged := kps ++ sorted
    merged.take start ++ sortKeypaths (merged.drop start)

/-- scanNoRngAux mirrors the rangeless branch of
`scanKeypathsWithPrefix`: visit the first contiguous block of keypaths
having the prefix, stopping at the first non-match after the block
began. -/
def scanNoRngAux (p : Keypath) : List Keypath → Nat → Bool → List (Keypath × Nat)
  | [], _, _ => []
  | k :: ks, i, found =>
    if kpStartsWith k p then (k, i) :: scanNoRngAux p ks (i + 1) true
    else if found then []
    else scanNoRngAux p ks (i + 1) found

/-- scanVisited computes the `(keypath, index)` pairs visited by
`scanKeypathsWithPrefix`; the Go `panic("bad")` is the error
`panicBad`. -/
def scanVisited (st : MemStore) (p : Keypath) (rng : Option Rng) :
    Except TErr (List (Keypath × Nat)) :=
  match rng with
  | some r =>
    if ntGet st p ≠ NodeType.slice then .error .rangeOverNonSlice
    else
      let se := r.indicesForLength (slGet st p).toNat
      match findPrefixStart st.keypaths 0 (p ++ [Seg.idx se.1]) with
      | none => .ok []
      | some sk =>
        match findPrefixEnd st.keypaths (sk + 1) (p ++ [Seg.idx se.2]) with
        | none => .error .panicBad
        | some ek =>
          .ok ((((st.keypaths.enum).drop sk).take (ek - sk)).map (fun q => (q.2, q.1)))
  | none => .ok (scanNoRngAux p st.keypaths 0 false)

def spliceStr (s : String) (r : Rng) : String :=
  String.mk (s.data.take r.start ++ s.data.drop r.stop)

/-- storeDeleteScan is the scan-and-erase phase of `MemoryNode.Delete`:
erase the visited keypaths from the three maps, excise the contiguous
index block from the keypath list, and record the removals in the
diff. -/
def storeDeleteScan (st : MemStore) (abs : Keypath) (rng : Option Rng) : Except TErr MemStore :=
  match scanVisited st abs rng with
  | .error e => .error e
  | .ok visited =>
    let st1 := visited.foldl (fun acc q =>
      { acc with values := alErase acc.values q.1,
                 nodeTypes := alErase acc.nodeTypes q.1,
                 sliceLengths := alErase acc.sliceLengths q.1 }) st
    match visited with
    | [] => .ok { st1 with diff := st1.diff.removeMany [] }
    | q0 :: _ =>
      let sIdx := q0.2
      let eIdx := (visited.getLastD q0).2
      let deleted := (st.keypaths.drop sIdx).take (eIdx + 1 - sIdx)
      .ok { st1 with keypaths := st.keypaths.take sIdx ++ st.keypaths.drop (eIdx + 1),
                     diff := st1.diff.removeMany deleted }

/-- storeDelete is the body of `MemoryNode.Delete` after range merging
and validity checking: without a range it drops the slice-length entry
and erases the subtree; with a range on a slice it decrements the
recorded length and erases the scanned block; with a range on a string
leaf it splices the substring out and returns early. -/
def storeDelete (st : MemStore) (abs : Keypath) (rng : Option Rng) : Except TErr MemStore :=
  match rng with
  | none => storeDeleteScan { st with sliceLengths := alErase st.sliceLengths abs } abs none
  | some r =>
    if ¬ r.valid then .error .invalidRange
    else
      match ntGet st abs with
      | .slice =>
        storeDeleteScan
          { st with sliceLengths := alPut st.sliceLengths abs (slGet st abs - (r.size : Int)) }
          abs (some r)
      | .value =>
        match alGet st.values abs with
        | some (.vstr s) =>
          if ¬ r.validForLength s.length then .error .invalidRange
          else .ok { st with values := alPut st.values abs (.vstr (spliceStr s r)) }
        | _ => .error .rangeOverNonSlice
      | _ => .error .rangeOverNonSlice

/-- copyStoreAt mirrors `MemoryNode.makeCopy`: copy only the prefix
block of keypaths under the node's keypath, and for each copied
keypath copy the (possibly missing, then nil) value, the node kind and
— for slices — the recorded length, plus the diff.  Note that a
missing value is copied as an entry holding the Go nil interface
(`vnull` here), so copied map and slice keypaths gain a value entry. -/
def copyStoreAt (st : MemStore) (nkp : Keypath) : MemStore :=
  let se : Nat × Nat :=
    if nkp.length > 0 then (findPrefixRange st.keypaths nkp).getD (0, 0)
    else (0, st.keypaths.length)
  let kps := (st.keypaths.drop se.1).take (se.2 - se.1)
  let vals := kps.foldl (fun acc kp => alPut acc kp ((alGet st.values kp).getD .vnull)) []
  let nts := kps.foldl (fun acc kp => alPut acc kp (ntGet st kp)) []
  let sls := kps.foldl (fun acc kp =>
      if ntGet st kp = NodeType.slice then alPut acc kp (slGet st kp) else acc) []
  { keypaths := kps, values := vals, nodeTypes := nts, sliceLengths := sls, diff := st.diff }

/-- makeCopy allocates a fresh backing store holding the node's prefix
copy and repoints the node at it (the Go method rebinds the node's
slice and map references in place). -/
def makeCopy (w : World) (n : NodeRef) : World × NodeRef :=
  match getStore w n.sid with
  | none => (w, n)
  | some st => (w ++ [copyStoreAt st n.keypath], { n with sid := w.length, copied := false })

def checkCopied (w : World) (n : NodeRef) : World × NodeRef :=
  if n.copied then makeCopy w n else (w, n)

/-- mergeRng mirrors the shared prologue of `Delete`, `Value` and
`CopyToMemory`: a nil argument falls back to the node's range; two
ranges at once is the Go `panic("unsupported")`. -/
def mergeRng : Option Rng → Option Rng → Except TErr (Option Rng)
  | none, nr => .ok nr
  | some r, none => .ok (some r)
  | some _, some _ => .error .unsupported

def rngInvalid : Option Rng → Bool
  | some r => ! r.valid
  | none => false

def nDelete (w : World) (n : NodeRef) (kp : Keypath) (rngp : Option Rng) :
    Except TErr (World × NodeRef) :=
  match mergeRng rngp n.rng with
  | .error e => .error e
  | .ok rng =>
    if rngInvalid rng then .error .invalidRange
    else
      let wn := checkCopied w n
      match getStore wn.1 wn.2.sid with
      | none => .error .internal
      | some st =>
        match storeDelete st (wn.2.keypath ++ kp) rng with
        | .error e => .error e
        | .ok st1 => .ok (setStore wn.1 wn.2.sid st1, wn.2)

/-- nodeDeleteOnStore is the node-level `Delete` semantics applied
directly at the store (used by `Set`, whose internal `Delete` calls
run after `checkCopied` has already fired). -/
def nodeDeleteOnStore (st : MemStore) (nodeRng : Option Rng) (nkp kp : Keypath)
    (rngp : Option Rng) : Except TErr MemStore :=
  match mergeRng rngp nodeRng with
  | .error e => .error e
  | .ok rng =>
    if rngInvalid rng then .error .invalidRange
    else storeDelete st (nkp ++ kp) rng

/-- setInters mirrors the intermediate-keypath loop of `MemoryNode.Set`:
for every proper prefix of the absolute keypath, materialize a map
kind, deleting a previous non-map occupant first (through the Go
`partialKeypath.RelativeTo(keypath)` call), and collect the prefix. -/
def setInters (nodeRng : Option Rng) (nkp kp abs : Keypath) :
    MemStore → List Nat → Except TErr (MemStore × List Keypath)
  | st, [] => .ok (st, [])
  | st, i :: rest =>
    let ancKp := abs.take i
    match ntGet st ancKp with
    | .invalid =>
      match setInters nodeRng nkp kp abs { st with nodeTypes := alPut st.nodeTypes ancKp .map } rest with
      | .error e => .error e
      | .ok q => .ok (q.1, ancKp :: q.2)
    | .map =>
      match setInters nodeRng nkp kp abs st rest with
      | .error e => .error e
      | .ok q => .ok (q.1, ancKp :: q.2)
    | _ =>
      match nodeDeleteOnStore st nodeRng nkp (kpRelativeTo ancKp kp) none with
      | .error e => .error e
      | .ok st1 =>
        match setInters nodeRng nkp kp abs { st1 with nodeTypes := alPut st1.nodeTypes ancKp .map } rest with
        | .error e => .error e
        | .ok q => .ok (q.1, ancKp :: q.2)

/-- storeSetMain is the body of `MemoryNode.Set` after the initial
subtree delete: materialize intermediate maps, walk the value emitting
one entry per node, record the new keypaths in the diff, and merge
them into the sorted keypath list. -/
def storeSetMain (st : MemStore) (nodeRng : Option Rng) (nkp kp : Keypath) (v : GV) :
    Except TErr MemStore :=
  let abs := nkp ++ kp
  match setInters nodeRng nkp kp abs st (List.range abs.length) with
  | .error e => .error e
  | .ok q =>
    let walked := walkGV v
    let st2 := walked.foldl (fun acc p =>
      let ankp := abs ++ p.1
      match p.2 with
      | .vmap _ => { acc with nodeTypes := alPut acc.nodeTypes ankp .map }
      | .varr elems =>
        { acc with nodeTypes := alPut acc.nodeTypes ankp .slice,
                   sliceLengths := alPut acc.sliceLengths ankp (elems.length : Int) }
      | lv =>
        { acc with nodeTypes := alPut acc.nodeTypes ankp .value,
                   values := alPut acc.values ankp lv }) q.1
    let newKps := q.2 ++ walked.map (fun p => abs ++ p.1)
    .ok { st2 with diff := st2.diff.addMany newKps,
                   keypaths := addKeypaths st2.keypaths newKps }

/-- nSet mirrors `MemoryNode.Set`: a non-nil range argument is the Go
`panic("unsupported")` before any mutation; otherwise delete the
occupant subtree (a node-level delete, which merges the node's own
range) and write the walked value. -/
def nSet (w : World) (n : NodeRef) (kp : Keypath) (rngp : Option Rng) (v : GV) :
    Except TErr (World × NodeRef) :=
  if rngp.isSome then .error .unsupported
  else
    let wn := checkCopied w n
    match getStore wn.1 wn.2.sid with
    | none => .error .internal
    | some st =>
      match nodeDeleteOnStore st wn.2.rng wn.2.keypath kp none with
      | .error e => .error e
      | .ok st1 =>
        match storeSetMain st1 wn.2.rng wn.2.keypath kp v with
        | .error e => .error e
        | .ok st2 => .ok (setStore wn.1 wn.2.sid st2, wn.2)

def nCopyToMemory (w : World) (t : NodeRef) (kp : Keypath) (rngp : Option Rng) :
    Except TErr (World × NodeRef) :=
  match mergeRng rngp t.rng with
  | .error e => .error e
  | .ok rng =>
    if rngInvalid rng then .error .invalidRange
    else .ok (makeCopy w { sid := t.sid, keypath := t.keypath ++ kp, rng := rng, copied := false })

/-- nExists mirrors `MemoryNode.Exists`: presence of the absolute
keypath in the values map (the error result is always nil in Go). -/
def nExists (w : World) (n : NodeRef) (kp : Keypath) : Bool :=
  match getStore w n.sid with
  | none => false
  | some st => (alGet st.values (n.keypath ++ kp)).isSome

/-- nAtKeypath mirrors `MemoryNode.AtKeypath`: a cursor over the same
backing store with the keypath pushed (the new node's copied flag is
the Go zero value false). -/
def nAtKeypath (n : NodeRef) (kp : Keypath) (rng : Option Rng) : NodeRef :=
  { sid := n.sid, keypath := n.keypath ++ kp, rng := rng, copied := false }

def valueTypeLen : GV → ValueType × Nat
  | .vstr s => (.vstring, s.length)
  | .vint _ => (.vint, 0)
  | .vuint _ => (.vuint, 0)
  | .vbool _ => (.vbool, 0)
  | .vnull => (.vnil, 0)
  | _ => (.invalid, 0)

/-- nNodeInfo mirrors `MemoryNode.NodeInfo` (floats omitted; a value
entry holding a non-leaf is the Go default `ValueTypeInvalid`). -/
def nNodeInfo (w : World) (n : NodeRef) : Except TErr (NodeType × ValueType × Nat) :=
  match getStore w n.sid with
  | none => .error .internal
  | some st =>
    match ntGet st n.keypath with
    | .invalid => .error .err404
    | .map => .ok (.map, .invalid, 0)
    | .slice => .ok (.slice, .invalid, (slGet st n.keypath).toNat)
    | .value =>
      match alGet st.values n.keypath with
      | none => .error .err404
      | some v => .ok (.value, (valueTypeLen v).1, (valueTypeLen v).2)

/-- nContentLength mirrors `MemoryNode.ContentLength`. -/
def nContentLength (w : World) (n : NodeRef) : Int :=
  match getStore w n.sid with
  | none => 0
  | some st =>
    match ntGet st n.keypath with
    | .map => 0
    | .slice => slGet st n.keypath
    | .value =>
      match alGet st.values n.keypath with
      | some (.vstr s) => (s.length : Int)
      | _ => 0
    | .invalid => 0

def nDiff (w : World) (n : NodeRef) : Option DiffSt :=
  (getStore w n.sid).map (·.diff)

/-- TreeOp is a mutating call on a node: `Set` or `Delete` with their
arguments. -/
inductive TreeOp where
  | setOp (kp : Keypath) (rng : Option Rng) (v : GV)
  | delOp (kp : Keypath) (rng : Option Rng)

/-- applyOp runs one mutating call; a call that errors (or panics, in
Go) leaves the world untouched. -/
def applyOp (wn : World × NodeRef) : TreeOp → World × NodeRef
  | .setOp kp rng v =>
    match nSet wn.1 wn.2 kp rng v with
    | .ok r => r
    | .error _ => wn
  | .delOp kp rng =>
    match nDelete wn.1 wn.2 kp rng with
    | .ok r => r
    | .error _ => wn

def applyOps (wn : World × NodeRef) (ops : List TreeOp) : World × NodeRef :=
  ops.foldl applyOp wn

/-! ## Transactions and the controller

`types.ID` and `types.Address` are opaque identifiers, modelled as
naturals; `types.IDFromString("genesis")` is the distinguished
`genesisTxID`.  `types.HashBytes` and the secp256k1 signature
primitives are external capabilities (not part of the repository), so
they are fields of a `Crypto` parameter.  The state tree, behavior
tree, validators and resolvers acted on by the extrinsic stage of
`processMempoolTx` touch none of the controller fields the claims are
about; the whole extrinsic pipeline (validators, resolvers,
`onTxProcessed`, `Save`, checkpointing) is the `ext` parameter, an
arbitrary per-tx verdict. -/

abbrev TxID := Nat
abbrev Address := Nat

def genesisTxID : TxID := 0

structure MPatch where
  keypath : Keypath
  rng : Option Rng
  val : GV

structure MTx where
  id : TxID
  parents : List TxID
  From : Address
  Sig : List Nat
  URL : String
  Patches : List MPatch
  Recipients : List Address
  Checkpoint : Bool
  Valid : Bool

/-- Crypto models the spec's capability contract: the keyed tx digest,
public-key recovery from a signature, signature verification, and the
address derived from a public key. -/
structure Crypto where
  hashTx : MTx → Nat
  recoverSigningPubkey : Nat → List Nat → Option Nat
  verifySignature : Nat → Nat → List Nat → Bool
  pubkeyAddress : Nat → Address

inductive PErr where
  | noParentYet
  | missingCriticalRefs
  | invalidSignature
  | txMissingParents
  | otherErr
deriving DecidableEq, Repr

def PErr.isRetryable : PErr → Bool
  | .noParentYet => true
  | .missingCriticalRefs => true
  | _ => false

structure CState where
  txs : List TxID
  store : List (TxID × MTx)
  leaves : Finset TxID
  mempool : List MTx

def initialCState : CState := { txs := [], store := [], leaves := ∅, mempool := [] }

def storeGetL : List (TxID × MTx) → TxID → Option MTx
  | [], _ => none
  | q :: rest, i => if q.1 = i then some q.2 else storeGetL rest i

def storeEraseL : List (TxID × MTx) → TxID → List (TxID × MTx)
  | [], _ => []
  | q :: rest, i => if q.1 = i then storeEraseL rest i else q :: storeEraseL rest i

def storePutL (st : List (TxID × MTx)) (tx : MTx) : List (TxID × MTx) :=
  (tx.id, tx) :: storeEraseL st tx.id

/-- storeGet models `txStore.FetchTx(stateURI, id)` for the
controller's own state URI; a `none` is the Go `types.Err404`. -/
def storeGet (s : CState) (id : TxID) : Option MTx := storeGetL s.store id

/-- storeHas models `txStore.TxExists`. -/
def storeHas (s : CState) (id : TxID) : Bool := (storeGet s id).isSome

def isValidInB (s : CState) (id : TxID) : Bool :=
  match storeGet s id with
  | some t => t.Valid
  | none => false

/-- haveTx models `controller.HaveTx`, which consults the in-memory
`c.txs` map — a map that no code path ever writes. -/
def haveTx (s : CState) (id : TxID) : Bool := s.txs.contains id

/-- addTx models `controller.AddTx` composed with the mempool
consumer's append: a known tx id is skipped; otherwise the tx is
stored with `Valid = false` and queued. -/
def addTx (s : CState) (tx : MTx) : CState :=
  if storeHas s tx.id then s
  else { s with store := storePutL s.store { tx with Valid := false },
                mempool := s.mempool ++ [tx] }

/-- checkParents is the parent loop of `validateTxIntrinsics`: each
parent must be fetchable, and must be valid unless it is the genesis
id. -/
def checkParents (s : CState) : List TxID → Except PErr Unit
  | [] => .ok ()
  | p :: ps =>
    match storeGet s p with
    | none => .error .noParentYet
    | some ptx =>
      if ptx.Valid = false ∧ p ≠ genesisTxID then .error .noParentYet
      else checkParents s ps

/-- validateTxIntrinsics mirrors `controller.validateTxIntrinsics`. -/
def validateTxIntrinsics (cr : Crypto) (s : CState) (tx : MTx) : Except PErr Unit :=
  if tx.parents = [] ∧ tx.id ≠ genesisTxID then .error .txMissingParents
  else
    match checkParents s tx.parents with
    | .error e => .error e
    | .ok () =>
      if tx.id ≠ genesisTxID then
        match cr.recoverSigningPubkey (cr.hashTx tx) tx.Sig with
        | none => .error .invalidSignature
        | some pk =>
          if cr.verifySignature pk (cr.hashTx tx) tx.Sig = false then .error .invalidSignature
          else if cr.pubkeyAddress pk ≠ tx.From then .error .invalidSignature
          else .ok ()
      else .ok ()

/-- processMempoolTx mirrors `controller.processMempoolTx`: intrinsic
validation, then the extrinsic pipeline (the `ext` parameter), then —
on success — unmark the parents as leaves, mark the tx a leaf, and
rewrite it in the store with `Valid = true`.  An error leaves the
controller state untouched (the writable state-tree snapshot is
discarded without `Save`). -/
def processMempoolTx (cr : Crypto) (ext : MTx → Except PErr Unit) (s : CState) (tx : MTx) :
    Except PErr CState :=
  match validateTxIntrinsics cr s tx with
  | .error e => .error e
  | .ok () =>
    match ext tx with
    | .error e => .error e
    | .ok () =>
      .ok { s with
        leaves := insert tx.id (tx.parents.foldl (fun l p => l.erase p) s.leaves),
        store := storePutL s.store { tx with Valid := true } }

/-- onePass is one pass of `controller.processMempool` over the given
pending list: it returns the state after the pass, the retained txs
(those that failed with a retryable error, in order) and whether any
tx succeeded. -/
def onePass (cr : Crypto) (ext : MTx → Except PErr Unit) :
    CState → List MTx → CState × List MTx × Bool
  | s, [] => (s, [], false)
  | s, tx :: rest =>
    match processMempoolTx cr ext s tx with
    | .error e =>
      let r := onePass cr ext s rest
      if e.isRetryable then (r.1, tx :: r.2.1, r.2.2) else r
    | .ok s1 =>
      let r := onePass cr ext s1 rest
      (r.1, r.2.1, true)

theorem onePass_kept_le (cr : Crypto) (ext : MTx → Except PErr Unit) (s : CState)
    (l : List MTx) : (onePass cr ext s l).2.1.length ≤ l.length := by
  induction l generalizing s with
  | nil => simp [onePass]
  | cons tx rest ih =>
    cases hp : processMempoolTx cr ext s tx with
    | error e =>
      cases he : e.isRetryable with
      | true =>
        simp [onePass, hp, he]
        exact ih s
      | false =>
        simp [onePass, hp, he]
        exact Nat.le_succ_of_le (ih s)
    | ok s1 =>
      simp [onePass, hp]
      exact Nat.le_succ_of_le (ih s1)

theorem onePass_kept_lt (cr : Crypto) (ext : MTx → Except PErr Unit) (s : CState)
    (l : List MTx) (h : (onePass cr ext s l).2.2 = true) :
    (onePass cr ext s l).2.1.length < l.length := by
  induction l generalizing s with
  | nil => simp [onePass] at h
  | cons tx rest ih =>
    cases hp : processMempoolTx cr ext s tx with
    | error e =>
      cases he : e.isRetryable with
      | true =>
        simp [onePass, hp, he] at h ⊢
        exact ih s h
      | false =>
        simp [onePass, hp, he] at h ⊢
        exact Nat.lt_succ_of_lt (ih s h)
    | ok s1 =>
      simp [onePass, hp]
      exact Nat.lt_succ_of_le (onePass_kept_le cr ext s1 rest)

/-- processLoop mirrors the outer loop of `controller.processMempool`:
run a pass over the mempool, install the retained list as the new
mempool, and repeat while the pass had at least one success. -/
def processLoop (cr : Crypto) (ext : MTx → Except PErr Unit) (s : CState) : CState :=
  if _hq : (onePass cr ext s s.mempool).2.2 then
    processLoop cr ext
      { (onePass cr ext s s.mempool).1 with mempool := (onePass cr ext s s.mempool).2.1 }
  else { (onePass cr ext s s.mempool).1 with mempool := (onePass cr ext s s.mempool).2.1 }
termination_by s.mempool.length
decreasing_by
  exact onePass_kept_lt cr ext s s.mempool _hq

/-- isParentOfValidB holds when some valid tx in the store lists `p`
among its parents. -/
def isParentOfValidB (s : CState) (p : TxID) : Bool :=
  s.store.any (fun q => q.2.Valid && q.2.parents.contains p)

/-! ## The host

`peerTuple` is the `(transportName, reachableAt)` identity pair from
the spec glossary; `peerTuples` (whose definition is not under the
sources) enumerates one tuple per reachable address of a peer.
`peerSeenTxs` is a set of `(tuple, txID)` pairs, the model of the
`peerTuple → set<TxID>` map.  Message emission is modelled by
returning the list of messages a call writes; transport discovery
(`ForEachSubscriberToStateURI`) is a parameter listing the subscriber
peers, and the per-recipient private delivery (peer discovery,
challenge/response and encryption are out-of-scope transport and
crypto work) is modelled as one delivery event per recipient. -/

structure MPeer where
  transportName : String
  reachable : List String
  address : Address

def peerTuples (p : MPeer) : List (String × String) :=
  p.reachable.map (fun r => (p.transportName, r))

structure HState where
  selfAddr : Address
  peerSeenTxs : List ((String × String) × TxID)
  ctrl : CState

def seenInsert (m : List ((String × String) × TxID)) (pr : (String × String) × TxID) :
    List ((String × String) × TxID) :=
  if pr ∈ m then m else pr :: m

/-- markTxSeenByPeer mirrors `host.markTxSeenByPeer`: record the tx id
against every tuple of the peer. -/
def markTxSeenByPeer (m : List ((String × String) × TxID)) (p : MPeer) (txid : TxID) :
    List ((String × String) × TxID) :=
  (peerTuples p).foldl (fun acc t => seenInsert acc (t, txid)) m

/-- txSeenByPeer mirrors `host.txSeenByPeer`: false for a peer with the
zero address, else true when any tuple of the peer has the id
recorded. -/
def txSeenByPeer (h : HState) (p : MPeer) (txid : TxID) : Bool :=
  if p.address = 0 then false
  else (peerTuples p).any (fun t => decide ((t, txid) ∈ h.peerSeenTxs))

inductive MsgOut where
  | put (toPeer : MPeer) (tx : MTx)
  | ackMsg (toPeer : MPeer) (txid : TxID)
  | privateTo (recipient : Address) (txid : TxID)

/-- broadcastTx mirrors `host.broadcastTx`: an unsigned tx is rejected
(`ErrUnsignedTx`, no sends); a private tx is delivered to every
recipient other than the host itself; a public tx is written as a
`Put` to every subscriber not already recorded as having seen it.  No
branch touches `peerSeenTxs`. -/
def broadcastTx (h : HState) (subs : List MPeer) (tx : MTx) : HState × List MsgOut :=
  if tx.Sig = [] then (h, [])
  else if tx.Recipients ≠ [] then
    (h, (tx.Recipients.filter (fun r => decide (r ≠ h.selfAddr))).map
          (fun r => .privateTo r tx.id))
  else
    (h, (subs.filter (fun p => ! txSeenByPeer h p tx.id)).map (fun p => .put p tx))

/-- onTxReceived mirrors `host.onTxReceived`: mark the tx seen by the
sender; if the controller does not report it known, add it and
rebroadcast; always ack the sender. -/
def onTxReceived (h : HState) (subs : List MPeer) (tx : MTx) (p : MPeer) :
    HState × List MsgOut :=
  let h1 : HState := { h with peerSeenTxs := markTxSeenByPeer h.peerSeenTxs p tx.id }
  if haveTx h1.ctrl tx.id = false then
    let h2 : HState := { h1 with ctrl := addTx h1.ctrl tx }
    let r := broadcastTx h2 subs tx
    (r.1, r.2 ++ [.ackMsg p tx.id])
  else (h1, [.ackMsg p tx.id])

/-- onAckReceived mirrors `host.onAckReceived`. -/
def onAckReceived (h : HState) (txid : TxID) (p : MPeer) : HState :=
  { h with peerSeenTxs := markTxSeenByPeer h.peerSeenTxs p txid }

/-- onPrivateTxReceived mirrors `host.onPrivateTxReceived`; decryption
and JSON decoding are outside the sources, so their outcome is the
`decrypted` parameter.  The seen-map update happens before decryption,
exactly as in the source. -/
def onPrivateTxReceived (h : HState) (subs : List MPeer) (etxId : TxID)
    (decrypted : Option MTx) (p : MPeer) : HState × List MsgOut :=
  let h1 : HState := { h with peerSeenTxs := markTxSeenByPeer h.peerSeenTxs p etxId }
  match decrypted with
  | none => (h1, [])
  | some tx =>
    if tx.id ≠ etxId then (h1, [])
    else if haveTx h1.ctrl tx.id = false then
      let h2 : HState := { h1 with ctrl := addTx h1.ctrl tx }
      let r := broadcastTx h2 subs tx
      (r.1, r.2 ++ [.ackMsg p tx.id])
    else (h1, [.ackMsg p tx.id])

/-! ## Private root keys

`PrivateRootKeyForRecipients` from tx.go.  Addresses are 20-byte
strings, modelled as byte lists; `types.HashBytes` is not part of the
sources and is the parameter `H`; `types.Hash.Hex` is standard
lowercase hex. -/

abbrev AddrBytes := List Nat

def hexDigit (n : Nat) : Char :=
  if n < 10 then Char.ofNat (48 + n) else Char.ofNat (97 + (n - 10))

def hexByte (b : Nat) : List Char := [hexDigit (b / 16 % 16), hexDigit (b % 16)]

def hexOfBytes (bs : List Nat) : String := String.mk (bs.flatMap hexByte)

/-- privateRootKeyForRecipients mirrors `PrivateRootKeyForRecipients`:
append the recipient addresses in the order given and hash. -/
def privateRootKeyForRecipients (H : List Nat → List Nat) (recipients : List AddrBytes) :
    String :=
  "private-" ++ hexOfBytes (H (recipients.foldl (fun acc r => acc ++ r) []))

def listLeb : List Nat → List Nat → Bool
  | [], _ => true
  | _ :: _, [] => false
  | a :: as, b :: bs =>
    if a < b then true else if b < a then false else listLeb as bs

def insAddr (a : AddrBytes) : List AddrBytes → List AddrBytes
  | [] => [a]
  | b :: bs => if listLeb b a then b :: insAddr a bs else a :: b :: bs

def sortAddrs : List AddrBytes → List AddrBytes
  | [] => []
  | a :: as => insAddr a (sortAddrs as)

/-- specPrivateRootKeySorted follows the spec's words for the claimed
formula: hex of the hash of the concatenation of the recipient
addresses in sorted order. -/
def specPrivateRootKeySorted (H : List Nat → List Nat) (recipients : List AddrBytes) :
    String :=
  "private-" ++ hexOfBytes (H (sortAddrs recipients).flatten)

/-- specPrivateRootKeyUnsorted follows the amended wording: hex of the
hash of the concatenation of the recipient addresses in the order
given. -/
def specPrivateRootKeyUnsorted (H : List Nat → List Nat) (recipients : List AddrBytes) :
    String :=
  "private-" ++ hexOfBytes (H recipients.flatten)

/-! ## Auxiliary predicates and concrete instances used by the claims -/

/-- cryptoOK states the three signature conditions of intrinsic
validation: recovery succeeds, the recovered key verifies the hash,
and its derived address is the tx's From field. -/
def cryptoOK (cr : Crypto) (tx : MTx) : Prop :=
  ∃ pk, cr.recoverSigningPubkey (cr.hashTx tx) tx.Sig = some pk ∧
        cr.verifySignature pk (cr.hashTx tx) tx.Sig = true ∧
        cr.pubkeyAddress pk = tx.From

/-- leavesMatch is the claimed leaves law: the leaves set holds exactly
the validated txs that no validated tx lists as a parent. -/
def leavesMatch (s : CState) : Prop :=
  ∀ i, i ∈ s.leaves ↔ (isValidInB s i = true ∧ isParentOfValidB s i = false)

def storeKeysNodup (s : CState) : Prop := (s.store.map Prod.fst).Nodup

/-- causalClosure: every parent of a valid stored tx is itself valid. -/
def causalClosure (s : CState) : Prop :=
  ∀ q ∈ s.store, q.2.Valid = true → ∀ p ∈ q.2.parents, isValidInB s p = true

/-- GoodRun describes controller histories in which every successfully
processed tx had all parents already valid and was not itself valid —
the discipline the mempool enforces except through the genesis
exemption. -/
inductive GoodRun (cr : Crypto) (ext : MTx → Except PErr Unit) : CState → Prop where
  | init : GoodRun cr ext initialCState
  | addTxStep (s : CState) (tx : MTx) : GoodRun cr ext s → GoodRun cr ext (addTx s tx)
  | processStep (s s1 : CState) (tx : MTx) :
      GoodRun cr ext s →
      (∀ p ∈ tx.parents, isValidInB s p = true) →
      isValidInB s tx.id = false →
      processMempoolTx cr ext s tx = .ok s1 →
      GoodRun cr ext s1

/-- isChainFrom p txs holds when txs form a parent chain rooted at p:
the first tx's parents are exactly [p] and each later tx's parents are
exactly the id of its predecessor. -/
def isChainFrom (p : TxID) : List MTx → Prop
  | [] => True
  | tx :: rest => tx.parents = [p] ∧ isChainFrom tx.id rest

def extOk : MTx → Except PErr Unit := fun _ => .ok ()

def trivCrypto : Crypto :=
  { hashTx := fun _ => 0,
    recoverSigningPubkey := fun _ _ => some 0,
    verifySignature := fun _ _ _ => true,
    pubkeyAddress := fun _ => 7 }

def gTx : MTx :=
  { id := genesisTxID, parents := [], From := 7, Sig := [], URL := "test",
    Patches := [], Recipients := [], Checkpoint := false, Valid := false }

def bTx : MTx :=
  { id := 1, parents := [genesisTxID], From := 7, Sig := [1], URL := "test",
    Patches := [], Recipients := [], Checkpoint := false, Valid := false }

/-- c1sA through c1sE are the stages of the execution trace refuting
the leaves law: the child tx bTx arrives before the (still pending)
genesis tx, the first mempool run leaves it blocked, and the run after
genesis arrives validates first the child — through the genesis
exemption of intrinsic validation — and then genesis itself. -/
def c1sA : CState := addTx initialCState bTx

def c1sB : CState :=
  { (onePass trivCrypto extOk c1sA c1sA.mempool).1 with
    mempool := (onePass trivCrypto extOk c1sA c1sA.mempool).2.1 }

def c1sC : CState := addTx c1sB gTx

def c1sD : CState :=
  { (onePass trivCrypto extOk c1sC c1sC.mempool).1 with
    mempool := (onePass trivCrypto extOk c1sC c1sC.mempool).2.1 }

def c1sE : CState :=
  { (onePass trivCrypto extOk c1sD c1sD.mempool).1 with
    mempool := (onePass trivCrypto extOk c1sD c1sD.mempool).2.1 }

def c1Run : CState := processLoop trivCrypto extOk (addTx (processLoop trivCrypto extOk c1sA) gTx)

def cTx2 : MTx :=
  { id := 2, parents := [1], From := 7, Sig := [1], URL := "test",
    Patches := [], Recipients := [], Checkpoint := false, Valid := false }

def cTx3 : MTx :=
  { id := 3, parents := [2], From := 7, Sig := [1], URL := "test",
    Patches := [], Recipients := [], Checkpoint := false, Valid := false }

/-- c5Base is a controller state whose store already holds the valid tx
1; the chain [cTx2, cTx3] hangs from it. -/
def c5Base : CState :=
  { txs := [], store := [(1, { bTx with Valid := true })],
    leaves := {1}, mempool := [] }

def c1GoodA : CState := addTx initialCState gTx

def c1GoodB : CState :=
  match processMempoolTx trivCrypto extOk c1GoodA gTx with
  | .ok s => s
  | .error _ => c1GoodA

def c5Start : CState := { c5Base with mempool := [cTx3, cTx2] }

def peerP : MPeer := { transportName := "memory", reachable := ["addr1", "addr2"], address := 42 }

def c6Tx : MTx :=
  { id := 9, parents := [1], From := 7, Sig := [1], URL := "test",
    Patches := [], Recipients := [], Checkpoint := false, Valid := false }

def c6Host : HState := { selfAddr := 5, peerSeenTxs := [], ctrl := initialCState }

/-! Concrete tree instances.  `rootN` is a fresh root node over store 0. -/

def rootN : NodeRef := { sid := 0, keypath := [], rng := none, copied := false }

def c4Val : GV :=
  .vmap (.cons "foo" (.varr (.cons (.vstr "a") (.cons (.vstr "b") .nil)))
    (.cons "zzz" (.vuint 1) .nil))

def c4Step1 : Except TErr (World × NodeRef) := nSet [emptyStore] rootN [] none c4Val

def c4Step2 : Except TErr (World × NodeRef) :=
  match c4Step1 with
  | .ok wn => nDelete wn.1 wn.2 [Seg.str "foo"] (some ⟨0, 1⟩)
  | .error e => .error e

def c10Val : GV :=
  .vmap (.cons "a" (.vmap (.cons "b" (.vuint 1) .nil))
    (.cons "c" (.varr (.cons (.vuint 1) (.cons (.vuint 2) .nil))) .nil))

def c10Base : World × NodeRef :=
  match nSet [emptyStore] rootN [] none c10Val with
  | .ok wn => wn
  | .error _ => ([emptyStore], rootN)

def c10Copy : World × NodeRef :=
  match nCopyToMemory c10Base.1 c10Base.2 [] none with
  | .ok wn => wn
  | .error _ => c10Base

def c8World : World := c10Base.1

def c8Copy : World × NodeRef :=
  match nCopyToMemory c8World rootN [Seg.str "a"] none with
  | .ok wn => wn
  | .error _ => (c8World, rootN)

def c8Ops : List TreeOp :=
  [ .setOp [Seg.str "b"] none (.vuint 5),
    .delOp [Seg.str "b"] none,
    .setOp [] none (.vmap (.cons "x" (.vstr "y") .nil)) ]

/-- WFvals states the value-map discipline of trees maintained by Set
and Delete alone: map- and slice-kinded keypaths carry no entry in the
values map. -/
def WFvals (st : MemStore) : Bool :=
  st.values.all (fun p =>
    match ntGet st p.1 with
    | NodeType.map => false
    | NodeType.slice => false
    | _ => true)

def c10Store : MemStore := (getStore c10Base.1 0).getD emptyStore

/-! ## Theorems -/

theorem checkParents_ok_iff (s : CState) (l : List TxID) :
    checkParents s l = .ok () ↔
      ∀ p ∈ l, ∃ ptx, storeGet s p = some ptx ∧ (ptx.Valid = true ∨ p = genesisTxID) := by
  induction l with
  | nil => simp [checkParents]
  | cons p ps ih =>
    simp only [checkParents]
    cases hp : storeGet s p with
    | none =>
      constructor
      · intro h; exact absurd h (by simp)
      · intro h
        obtain ⟨ptx, hptx, -⟩ := h p (List.mem_cons_self p ps)
        rw [hp] at hptx
        exact absurd hptx (by simp)
    | some ptx =>
      dsimp only
      by_cases hv : ptx.Valid = false ∧ p ≠ genesisTxID
      · rw [if_pos hv]
        constructor
        · intro h; exact absurd h (by simp)
        · intro h
          obtain ⟨ptx2, hptx2, hval⟩ := h p (List.mem_cons_self p ps)
          rw [hp] at hptx2
          have he : ptx = ptx2 := Option.some.inj hptx2
          subst he
          rcases hval with hval | hval
          · rw [hval] at hv
            exact absurd hv.1 (by simp)
          · exact (hv.2 hval).elim
      · rw [if_neg hv, ih]
        constructor
        · intro h q hq
          rcases List.mem_cons.mp hq with rfl | hq2
          · refine ⟨ptx, hp, ?_⟩
            rcases Classical.em (ptx.Valid = false) with hf | hf
            · right
              by_contra hg
              exact hv ⟨hf, hg⟩
            · left
              cases hb : ptx.Valid
              · exact absurd hb hf
              · rfl
          · exact h q hq2
        · intro h q hq
          exact h q (List.mem_cons_of_mem p hq)

/-- Claim C2: intrinsic validation of a tx succeeds exactly when (1) it
has a parent unless its id is the genesis id, (2) every parent is in
the tx store and valid (genesis implicitly valid), and (3) every
non-genesis tx carries a signature whose recovered key verifies the
hash and derives the From address, the genesis tx needing none. -/
theorem C2_intrinsic_validation (cr : Crypto) (s : CState) (tx : MTx) :
    validateTxIntrinsics cr s tx = .ok () ↔
      ((tx.parents ≠ [] ∨ tx.id = genesisTxID) ∧
       (∀ p ∈ tx.parents,
          ∃ ptx, storeGet s p = some ptx ∧ (ptx.Valid = true ∨ p = genesisTxID)) ∧
       (tx.id ≠ genesisTxID → cryptoOK cr tx)) := by
  unfold validateTxIntrinsics
  by_cases h1 : tx.parents = [] ∧ tx.id ≠ genesisTxID
  · rw [if_pos h1]
    constructor
    · intro h; exact absurd h (by simp)
    · rintro ⟨hc, -, -⟩
      rcases hc with hne | hgen
      · exact absurd h1.1 hne
      · exact absurd hgen h1.2
  · rw [if_neg h1]
    have hfirst : tx.parents ≠ [] ∨ tx.id = genesisTxID := by
      rcases Classical.em (tx.parents = []) with he | he
      · right
        by_contra hg
        exact h1 ⟨he, hg⟩
      · left; exact he
    cases hcp : checkParents s tx.parents with
    | error e =>
      constructor
      · intro h; exact absurd h (by simp)
      · rintro ⟨-, h2, -⟩
        have hok := (checkParents_ok_iff s tx.parents).mpr h2
        rw [hcp] at hok
        exact absurd hok (by simp)
    | ok u =>
      cases u
      dsimp only
      have h2 := (checkParents_ok_iff s tx.parents).mp hcp
      by_cases hgen : tx.id ≠ genesisTxID
      · rw [if_pos hgen]
        cases hrec : cr.recoverSigningPubkey (cr.hashTx tx) tx.Sig with
        | none =>
          constructor
          · intro h; exact absurd h (by simp)
          · rintro ⟨-, -, h3⟩
            obtain ⟨pk, hpk, -, -⟩ := h3 hgen
            rw [hrec] at hpk
            exact absurd hpk (by simp)
        | some pk =>
          dsimp only
          by_cases hver : cr.verifySignature pk (cr.hashTx tx) tx.Sig = false
          · rw [if_pos hver]
            constructor
            · intro h; exact absurd h (by simp)
            · rintro ⟨-, -, h3⟩
              obtain ⟨pk2, hpk2, hv2, -⟩ := h3 hgen
              rw [hrec] at hpk2
              have he : pk = pk2 := Option.some.inj hpk2
              subst he
              rw [hv2] at hver
              exact absurd hver (by simp)
          · rw [if_neg hver]
            by_cases haddr : cr.pubkeyAddress pk ≠ tx.From
            · rw [if_pos haddr]
              constructor
              · intro h; exact absurd h (by simp)
              · rintro ⟨-, -, h3⟩
                obtain ⟨pk2, hpk2, -, ha2⟩ := h3 hgen
                rw [hrec] at hpk2
                have he : pk = pk2 := Option.some.inj hpk2
                subst he
                exact absurd ha2 haddr
            · rw [if_neg haddr]
              constructor
              · intro _
                refine ⟨hfirst, h2, fun _ => ⟨pk, hrec, ?_, not_not.mp haddr⟩⟩
                cases hb : cr.verifySignature pk (cr.hashTx tx) tx.Sig
                · exact absurd hb hver
                · rfl
              · intro _; rfl
      · rw [if_neg hgen]
        constructor
        · intro _
          exact ⟨hfirst, h2, fun hg => absurd hg hgen⟩
        · intro _; rfl

/-- Witness for C2 at a concrete genesis tx in the empty store. -/
theorem C2_witness :
    validateTxIntrinsics trivCrypto initialCState gTx = .ok () ↔
      ((gTx.parents ≠ [] ∨ gTx.id = genesisTxID) ∧
       (∀ p ∈ gTx.parents,
          ∃ ptx, storeGet initialCState p = some ptx ∧ (ptx.Valid = true ∨ p = genesisTxID)) ∧
       (gTx.id ≠ genesisTxID → cryptoOK trivCrypto gTx)) :=
  C2_intrinsic_validation trivCrypto initialCState gTx

/-- Counterexample to claim C3: with the hash modelled as any injective
function (identity here), the private root key of a recipient list is
not the claimed sorted-order formula, and permuting the recipients
changes the key. -/
theorem C3_counterexample :
    privateRootKeyForRecipients (fun bs => bs) [[2], [1]] ≠
        specPrivateRootKeySorted (fun bs => bs) [[2], [1]] ∧
    privateRootKeyForRecipients (fun bs => bs) [[1], [2]] ≠
        privateRootKeyForRecipients (fun bs => bs) [[2], [1]] := by
  exact ⟨by decide, by decide⟩

/-- Claim C3 as amended: for every hash function and recipient list,
PrivateRootKeyForRecipients is "private-" followed by the hex of the
hash of the concatenation of the recipient addresses in the order
given (no sorting), so the key is order dependent. -/
theorem C3_private_root_key (H : List Nat → List Nat) (recipients : List AddrBytes) :
    privateRootKeyForRecipients H recipients = specPrivateRootKeyUnsorted H recipients := by
  unfold privateRootKeyForRecipients specPrivateRootKeyUnsorted
  have hfold : ∀ (l : List AddrBytes) (acc : List Nat),
      l.foldl (fun a r => a ++ r) acc = acc ++ l.flatten := by
    intro l
    induction l with
    | nil => intro acc; simp
    | cons x xs ih =>
      intro acc
      simp only [List.foldl_cons, List.flatten_cons, ih, List.append_assoc]
  rw [hfold recipients []]
  simp

/-- Witness for C3 at a concrete hash and recipient list. -/
theorem C3_witness :
    privateRootKeyForRecipients (fun bs => bs) [[1], [2]] =
      specPrivateRootKeyUnsorted (fun bs => bs) [[1], [2]] :=
  C3_private_root_key (fun bs => bs) [[1], [2]]

/-- Claim C9: a Set with a non-nil range is rejected as unsupported (a
panic in Go, an error here, raised before any mutation), and the tree
is exactly as before the call. -/
theorem C9_ranged_set_rejected (w : World) (n : NodeRef) (kp : Keypath) (r : Rng) (v : GV) :
    nSet w n kp (some r) v = .error .unsupported ∧
    applyOp (w, n) (.setOp kp (some r) v) = (w, n) := by
  constructor
  · rfl
  · rfl

/-- Witness for C9 at a concrete tree, keypath, range and value. -/
theorem C9_witness :
    nSet c10Base.1 c10Base.2 [Seg.str "a"] (some ⟨0, 1⟩) (.vuint 3) = .error .unsupported ∧
    applyOp (c10Base.1, c10Base.2) (.setOp [Seg.str "a"] (some ⟨0, 1⟩) (.vuint 3)) =
      (c10Base.1, c10Base.2) :=
  C9_ranged_set_rejected c10Base.1 c10Base.2 [Seg.str "a"] ⟨0, 1⟩ (.vuint 3)

theorem broadcastTx_fst (h : HState) (subs : List MPeer) (tx : MTx) :
    (broadcastTx h subs tx).1 = h := by
  unfold broadcastTx
  split_ifs <;> rfl

theorem storeGetL_erase_ne (st : List (TxID × MTx)) (k i : TxID) (h : i ≠ k) :
    storeGetL (storeEraseL st k) i = storeGetL st i := by
  induction st with
  | nil => rfl
  | cons q rest ih =>
    by_cases hq : q.1 = k
    · have hqi : ¬ q.1 = i := fun he => h (he ▸ hq)
      have hki : ¬ k = i := fun he => h he.symm
      simp [storeEraseL, storeGetL, hq, hqi, hki, ih]
    · simp [storeEraseL, storeGetL, hq, ih]

theorem storeGetL_put (st : List (TxID × MTx)) (tx : MTx) (i : TxID) :
    storeGetL (storePutL st tx) i = if i = tx.id then some tx else storeGetL st i := by
  unfold storePutL
  by_cases hi : i = tx.id
  · subst hi
    simp [storeGetL]
  · have hne : ¬ tx.id = i := fun he => hi he.symm
    simp [storeGetL, hne, hi, storeGetL_erase_ne st tx.id i hi]

theorem addTx_txs (s : CState) (tx : MTx) : (addTx s tx).txs = s.txs := by
  unfold addTx
  split_ifs <;> rfl

theorem addTx_storeHas_self (s : CState) (tx : MTx) : storeHas (addTx s tx) tx.id = true := by
  unfold addTx
  by_cases hh : storeHas s tx.id = true
  · rw [if_pos hh]; exact hh
  · rw [if_neg hh]
    unfold storeHas storeGet
    show (storeGetL (storePutL s.store { tx with Valid := false }) tx.id).isSome = true
    rw [storeGetL_put]
    simp

theorem addTx_idem (s : CState) (tx : MTx) : addTx (addTx s tx) tx = addTx s tx := by
  have h := addTx_storeHas_self s tx
  show (if storeHas (addTx s tx) tx.id = true then addTx s tx
        else { addTx s tx with
                store := storePutL (addTx s tx).store { tx with Valid := false },
                mempool := (addTx s tx).mempool ++ [tx] }) = addTx s tx
  rw [if_pos h]

theorem onTxReceived_ctrl (h : HState) (subs : List MPeer) (tx : MTx) (p : MPeer) :
    (onTxReceived h subs tx p).1.ctrl =
      if haveTx h.ctrl tx.id = false then addTx h.ctrl tx else h.ctrl := by
  unfold onTxReceived
  dsimp only
  by_cases hv : haveTx h.ctrl tx.id = false
  · rw [if_pos hv, if_pos hv, broadcastTx_fst]
  · rw [if_neg hv, if_neg hv]

/-- Claim C7: delivering the same tx to onTxReceived twice applies it
to the controller once — the second delivery changes neither the tx
store, the mempool nor the leaves set. -/
theorem C7_gossip_idempotence (h : HState) (subs subs2 : List MPeer) (tx : MTx) (p p2 : MPeer) :
    (onTxReceived (onTxReceived h subs tx p).1 subs2 tx p2).1.ctrl =
      (onTxReceived h subs tx p).1.ctrl ∧
    (onTxReceived (onTxReceived h subs tx p).1 subs2 tx p2).1.ctrl.store =
      (onTxReceived h subs tx p).1.ctrl.store ∧
    (onTxReceived (onTxReceived h subs tx p).1 subs2 tx p2).1.ctrl.mempool =
      (onTxReceived h subs tx p).1.ctrl.mempool ∧
    (onTxReceived (onTxReceived h subs tx p).1 subs2 tx p2).1.ctrl.leaves =
      (onTxReceived h subs tx p).1.ctrl.leaves := by
  have hmain : (onTxReceived (onTxReceived h subs tx p).1 subs2 tx p2).1.ctrl =
      (onTxReceived h subs tx p).1.ctrl := by
    rw [onTxReceived_ctrl, onTxReceived_ctrl]
    by_cases hv : haveTx h.ctrl tx.id = false
    · rw [if_pos hv]
      have hv2 : haveTx (addTx h.ctrl tx) tx.id = false := by
        unfold haveTx
        rw [addTx_txs]
        exact hv
      rw [if_pos hv2]
      exact addTx_idem h.ctrl tx
    · rw [if_neg hv, if_neg hv]
  exact ⟨hmain, congrArg CState.store hmain, congrArg CState.mempool hmain,
    congrArg CState.leaves hmain⟩

/-- Witness for C7 at a concrete host, tx and peer. -/
theorem C7_witness :
    (onTxReceived (onTxReceived c6Host [peerP] c6Tx peerP).1 [peerP] c6Tx peerP).1.ctrl =
      (onTxReceived c6Host [peerP] c6Tx peerP).1.ctrl :=
  (C7_gossip_idempotence c6Host [peerP] [peerP] c6Tx peerP peerP).1

/-- Claim C4 (code bug): on the tree `{foo: ["a","b"], zzz: 1}`,
Delete("foo", [0:1)) records slice length 1 but removes BOTH children
foo/0 and foo/1 (the scan runs from the first entry under foo/0 to the
end of the foo/1 subtree), so the required child foo/0 does not exist:
the slice invariant K/0 … K/(N-1) is violated. -/
theorem C4_slice_invariant_eval :
    (match c4Step2 with
     | .ok wn =>
       (getStore wn.1 0).map (fun st =>
         (alGet st.sliceLengths [Seg.str "foo"],
          alGet st.values [Seg.str "foo", Seg.idx 0],
          alGet st.values [Seg.str "foo", Seg.idx 1],
          ntGet st [Seg.str "foo", Seg.idx 0]))
     | .error _ => none) =
      some (some 1, none, none, NodeType.invalid) := by
  rfl

theorem seenInsert_mem (m : List ((String × String) × TxID)) (pr q : (String × String) × TxID) :
    q ∈ seenInsert m pr ↔ q = pr ∨ q ∈ m := by
  unfold seenInsert
  by_cases hp : pr ∈ m
  · rw [if_pos hp]
    constructor
    · intro h; exact Or.inr h
    · rintro (rfl | h)
      · exact hp
      · exact h
  · rw [if_neg hp]
    exact List.mem_cons

theorem foldlSeen_mono (ts : List (String × String)) (txid : TxID)
    (m : List ((String × String) × TxID)) (q : (String × String) × TxID) (h : q ∈ m) :
    q ∈ ts.foldl (fun acc t => seenInsert acc (t, txid)) m := by
  induction ts generalizing m with
  | nil => exact h
  | cons a as ih => exact ih _ ((seenInsert_mem m (a, txid) q).mpr (Or.inr h))

theorem foldlSeen_mem : ∀ (ts : List (String × String)) (txid : TxID) (t : String × String)
    (m : List ((String × String) × TxID)), t ∈ ts →
    (t, txid) ∈ ts.foldl (fun acc u => seenInsert acc (u, txid)) m
  | [], _, t, _, ht => absurd ht (List.not_mem_nil t)
  | a :: as, txid, t, m, ht => by
    rcases List.mem_cons.mp ht with rfl | hmem
    · exact foldlSeen_mono as txid _ _ ((seenInsert_mem m (t, txid) (t, txid)).mpr (Or.inl rfl))
    · exact foldlSeen_mem as txid t _ hmem

theorem markTxSeen_mem (m : List ((String × String) × TxID)) (p : MPeer) (txid : TxID)
    (t : String × String) (ht : t ∈ peerTuples p) :
    (t, txid) ∈ markTxSeenByPeer m p txid :=
  foldlSeen_mem (peerTuples p) txid t m ht

theorem onTxReceived_seen (h : HState) (subs : List MPeer) (tx : MTx) (p : MPeer) :
    (onTxReceived h subs tx p).1.peerSeenTxs = markTxSeenByPeer h.peerSeenTxs p tx.id := by
  unfold onTxReceived
  dsimp only
  by_cases hv : haveTx h.ctrl tx.id = false
  · rw [if_pos hv, broadcastTx_fst]
  · rw [if_neg hv]

theorem onPrivateTxReceived_seen (h : HState) (subs : List MPeer) (etxId : TxID)
    (decrypted : Option MTx) (p : MPeer) :
    (onPrivateTxReceived h subs etxId decrypted p).1.peerSeenTxs =
      markTxSeenByPeer h.peerSeenTxs p etxId := by
  unfold onPrivateTxReceived
  dsimp only
  cases decrypted with
  | none => rfl
  | some tx =>
    dsimp only
    by_cases hid : tx.id ≠ etxId
    · rw [if_pos hid]
    · rw [if_neg hid]
      by_cases hv : haveTx h.ctrl tx.id = false
      · rw [if_pos hv, broadcastTx_fst]
      · rw [if_neg hv]

/-- Counterexample to claim C6: broadcastTx writes a Put for the tx to
a subscriber that has not seen it, yet the resulting peerSeenTxs map
is unchanged (still empty) — the map is not updated on sends. -/
theorem C6_counterexample :
    (broadcastTx c6Host [peerP] c6Tx).2 = [MsgOut.put peerP c6Tx] ∧
    (broadcastTx c6Host [peerP] c6Tx).1.peerSeenTxs = [] ∧
    ¬ ((("memory", "addr1"), c6Tx.id) ∈ (broadcastTx c6Host [peerP] c6Tx).1.peerSeenTxs) := by
  refine ⟨rfl, rfl, ?_⟩
  intro hmem
  rw [show (broadcastTx c6Host [peerP] c6Tx).1.peerSeenTxs = [] from rfl] at hmem
  exact absurd hmem (List.not_mem_nil _)

/-- Claim C6 as amended: the peerSeenTxs map is updated on every
inbound tx, inbound private tx (even before decryption), and Ack —
after any of these handlers runs for a tx id from peer P, every peer
tuple of P has the id recorded — but not on sends: broadcastTx leaves
the host state (and so the map) unchanged and only consults it. -/
theorem C6_seen_map_updates (h : HState) (subs : List MPeer) (tx : MTx) (txid : TxID)
    (decrypted : Option MTx) (p : MPeer) (t : String × String) (ht : t ∈ peerTuples p) :
    ((t, tx.id) ∈ (onTxReceived h subs tx p).1.peerSeenTxs) ∧
    ((t, txid) ∈ (onAckReceived h txid p).peerSeenTxs) ∧
    ((t, txid) ∈ (onPrivateTxReceived h subs txid decrypted p).1.peerSeenTxs) ∧
    (broadcastTx h subs tx).1 = h := by
  refine ⟨?_, ?_, ?_, broadcastTx_fst h subs tx⟩
  · rw [onTxReceived_seen]
    exact markTxSeen_mem h.peerSeenTxs p tx.id t ht
  · unfold onAckReceived
    exact markTxSeen_mem h.peerSeenTxs p txid t ht
  · rw [onPrivateTxReceived_seen]
    exact markTxSeen_mem h.peerSeenTxs p txid t ht

/-- Witness for C6 at a concrete host, tx, ack and peer tuple. -/
theorem C6_witness :
    ((("memory", "addr1"), c6Tx.id) ∈ (onTxReceived c6Host [peerP] c6Tx peerP).1.peerSeenTxs) ∧
    ((("memory", "addr1"), (9 : TxID)) ∈ (onAckReceived c6Host 9 peerP).peerSeenTxs) ∧
    ((("memory", "addr1"), (9 : TxID)) ∈
      (onPrivateTxReceived c6Host [peerP] 9 none peerP).1.peerSeenTxs) ∧
    (broadcastTx c6Host [peerP] c6Tx).1 = c6Host :=
  C6_seen_map_updates c6Host [peerP] c6Tx 9 none peerP ("memory", "addr1") (by decide)

theorem alGet_mem {α : Type} (m : List (Keypath × α)) (k : Keypath) (v : α)
    (h : alGet m k = some v) : (k, v) ∈ m := by
  induction m with
  | nil => exact absurd h (by simp [alGet])
  | cons p rest ih =>
    by_cases hp : p.1 = k
    · rw [alGet, if_pos hp] at h
      have hv : p.2 = v := Option.some.inj h
      have hkv : (k, v) = p := by
        rw [← hp, ← hv]
      rw [hkv]
      exact List.mem_cons_self p rest
    · rw [alGet, if_neg hp] at h
      exact List.mem_cons_of_mem p (ih h)

theorem WFvals_none (st : MemStore) (hwf : WFvals st = true) (k : Keypath)
    (hk : ntGet st k = NodeType.map ∨ ntGet st k = NodeType.slice) :
    alGet st.values k = none := by
  cases hv : alGet st.values k with
  | none => rfl
  | some v =>
    have hmem := alGet_mem st.values k v hv
    have hall := (List.all_eq_true.mp hwf) _ hmem
    dsimp only at hall
    rcases hk with hk | hk <;> rw [hk] at hall <;> exact absurd hall (by simp)

/-- Claim C10 as amended: Exists(K) is true exactly when K has an
entry in the values map; in a store satisfying the Set/Delete value
discipline (WFvals — which makeCopy breaks by inserting nil entries
for copied map and slice keypaths) a keypath whose NodeInfo reports
NodeTypeMap or NodeTypeSlice has Exists false. -/
theorem C10_exists_iff (w : World) (n : NodeRef) (kp : Keypath) (st : MemStore)
    (hst : getStore w n.sid = some st) (hwf : WFvals st = true) :
    (nExists w n kp = true ↔ (alGet st.values (n.keypath ++ kp)).isSome = true) ∧
    (∀ r nt vt ln, nNodeInfo w (nAtKeypath n kp r) = .ok (nt, vt, ln) →
      (nt = NodeType.map ∨ nt = NodeType.slice) → nExists w n kp = false) := by
  have hex : nExists w n kp = (alGet st.values (n.keypath ++ kp)).isSome := by
    unfold nExists
    rw [hst]
  constructor
  · rw [hex]
  · intro r nt vt ln hni hnt
    unfold nNodeInfo nAtKeypath at hni
    rw [hst] at hni
    dsimp only at hni
    cases hk : ntGet st (n.keypath ++ kp) with
    | invalid =>
      rw [hk] at hni
      exact absurd hni (by simp)
    | map =>
      rw [hex, WFvals_none st hwf _ (Or.inl hk)]
      rfl
    | slice =>
      rw [hex, WFvals_none st hwf _ (Or.inr hk)]
      rfl
    | value =>
      rw [hk] at hni
      cases hvv : alGet st.values (n.keypath ++ kp) with
      | none =>
        rw [hvv] at hni
        exact absurd hni (by simp)
      | some v =>
        rw [hvv] at hni
        dsimp only at hni
        have hnt2 : nt = NodeType.value := by
          have := (Except.ok.inj hni)
          exact (Prod.mk.injEq _ _ _ _ ▸ this).1.symm ▸ rfl
        rcases hnt with hnt | hnt <;> rw [hnt2] at hnt <;> exact absurd hnt (by simp)

/-- Witness for C10 at the concrete tree built by Set from an empty
store. -/
theorem C10_witness :
    (nExists c10Base.1 c10Base.2 [Seg.str "a"] = true ↔
      (alGet c10Store.values (c10Base.2.keypath ++ [Seg.str "a"])).isSome = true) ∧
    (∀ r nt vt ln,
      nNodeInfo c10Base.1 (nAtKeypath c10Base.2 [Seg.str "a"] r) = .ok (nt, vt, ln) →
      (nt = NodeType.map ∨ nt = NodeType.slice) →
      nExists c10Base.1 c10Base.2 [Seg.str "a"] = false) :=
  C10_exists_iff c10Base.1 c10Base.2 [Seg.str "a"] c10Store (by rfl) (by decide)

theorem getStore_setStore_ne : ∀ (w : World) (i j : Nat) (st : MemStore), i ≠ j →
    getStore (setStore w i st) j = getStore w j
  | [], _, _, _, _ => rfl
  | _ :: _, 0, 0, _, h => absurd rfl h
  | _ :: _, 0, _ + 1, _, _ => rfl
  | _ :: _, _ + 1, 0, _, _ => rfl
  | _ :: w, i + 1, j + 1, st, h =>
    getStore_setStore_ne w i j st (fun he => h (by rw [he]))

theorem getStore_append_left : ∀ (w w2 : World) (j : Nat), j < w.length →
    getStore (w ++ w2) j = getStore w j
  | [], _, j, h => absurd h (by simp)
  | _ :: _, _, 0, _ => rfl
  | _ :: w, w2, j + 1, h => getStore_append_left w w2 j (by simpa using h)

theorem getStore_isSome_of_lt : ∀ (w : World) (j : Nat), j < w.length →
    (getStore w j).isSome = true
  | [], j, h => absurd h (by simp)
  | _ :: _, 0, _ => rfl
  | _ :: w, j + 1, h => getStore_isSome_of_lt w j (by simpa using h)

theorem checkCopied_false (w : World) (n : NodeRef) (hc : n.copied = false) :
    checkCopied w n = (w, n) := by
  unfold checkCopied
  rw [hc]
  simp

theorem nSet_ok_inv (w : World) (n : NodeRef) (kp : Keypath) (rng : Option Rng) (v : GV)
    (r : World × NodeRef) (hc : n.copied = false) (h : nSet w n kp rng v = .ok r) :
    r.2 = n ∧ ∃ st2, r.1 = setStore w n.sid st2 := by
  unfold nSet at h
  by_cases hr : rng.isSome
  · rw [if_pos hr] at h
    exact absurd h (by simp)
  · rw [if_neg hr] at h
    rw [checkCopied_false w n hc] at h
    dsimp only at h
    cases hg : getStore w n.sid with
    | none =>
      rw [hg] at h
      exact absurd h (by simp)
    | some st =>
      rw [hg] at h
      dsimp only at h
      cases hd : nodeDeleteOnStore st n.rng n.keypath kp none with
      | error e =>
        rw [hd] at h
        exact absurd h (by simp)
      | ok st1 =>
        rw [hd] at h
        dsimp only at h
        cases hm : storeSetMain st1 n.rng n.keypath kp v with
        | error e =>
          rw [hm] at h
          exact absurd h (by simp)
        | ok st2 =>
          rw [hm] at h
          have hh := Except.ok.inj h
          subst hh
          exact ⟨rfl, st2, rfl⟩

theorem nDelete_ok_inv (w : World) (n : NodeRef) (kp : Keypath) (rngp : Option Rng)
    (r : World × NodeRef) (hc : n.copied = false) (h : nDelete w n kp rngp = .ok r) :
    r.2 = n ∧ ∃ st2, r.1 = setStore w n.sid st2 := by
  unfold nDelete at h
  cases hm : mergeRng rngp n.rng with
  | error e =>
    rw [hm] at h
    exact absurd h (by simp)
  | ok rng =>
    rw [hm] at h
    dsimp only at h
    by_cases hi : rngInvalid rng = true
    · rw [if_pos hi] at h
      exact absurd h (by simp)
    · rw [if_neg hi] at h
      rw [checkCopied_false w n hc] at h
      dsimp only at h
      cases hg : getStore w n.sid with
      | none =>
        rw [hg] at h
        exact absurd h (by simp)
      | some st =>
        rw [hg] at h
        dsimp only at h
        cases hd : storeDelete st (n.keypath ++ kp) rng with
        | error e =>
          rw [hd] at h
          exact absurd h (by simp)
        | ok st1 =>
          rw [hd] at h
          have hh := Except.ok.inj h
          subst hh
          exact ⟨rfl, st1, rfl⟩

theorem applyOp_set_err (wn : World × NodeRef) (kp : Keypath) (rng : Option Rng) (v : GV)
    (e : TErr) (h : nSet wn.1 wn.2 kp rng v = .error e) :
    applyOp wn (.setOp kp rng v) = wn := by
  unfold applyOp
  dsimp only
  rw [h]

theorem applyOp_set_ok (wn : World × NodeRef) (kp : Keypath) (rng : Option Rng) (v : GV)
    (r : World × NodeRef) (h : nSet wn.1 wn.2 kp rng v = .ok r) :
    applyOp wn (.setOp kp rng v) = r := by
  unfold applyOp
  dsimp only
  rw [h]

theorem applyOp_del_err (wn : World × NodeRef) (kp : Keypath) (rng : Option Rng)
    (e : TErr) (h : nDelete wn.1 wn.2 kp rng = .error e) :
    applyOp wn (.delOp kp rng) = wn := by
  unfold applyOp
  dsimp only
  rw [h]

theorem applyOp_del_ok (wn : World × NodeRef) (kp : Keypath) (rng : Option Rng)
    (r : World × NodeRef) (h : nDelete wn.1 wn.2 kp rng = .ok r) :
    applyOp wn (.delOp kp rng) = r := by
  unfold applyOp
  dsimp only
  rw [h]

theorem applyOp_frame (L : Nat) (wn : World × NodeRef) (op : TreeOp)
    (hc : wn.2.copied = false) (hs : L ≤ wn.2.sid) :
    (applyOp wn op).2.copied = false ∧ L ≤ (applyOp wn op).2.sid ∧
    ∀ j, j < L → getStore (applyOp wn op).1 j = getStore wn.1 j := by
  cases op with
  | setOp kp rng v =>
    cases hr : nSet wn.1 wn.2 kp rng v with
    | error e =>
      rw [applyOp_set_err wn kp rng v e hr]
      exact ⟨hc, hs, fun j hj => rfl⟩
    | ok r =>
      rw [applyOp_set_ok wn kp rng v r hr]
      obtain ⟨h2, st2, h1⟩ := nSet_ok_inv wn.1 wn.2 kp rng v r hc hr
      refine ⟨by rw [h2]; exact hc, by rw [h2]; exact hs, ?_⟩
      intro j hj
      rw [h1]
      exact getStore_setStore_ne wn.1 wn.2.sid j st2
        (Nat.ne_of_gt (Nat.lt_of_lt_of_le hj hs))
  | delOp kp rng =>
    cases hr : nDelete wn.1 wn.2 kp rng with
    | error e =>
      rw [applyOp_del_err wn kp rng e hr]
      exact ⟨hc, hs, fun j hj => rfl⟩
    | ok r =>
      rw [applyOp_del_ok wn kp rng r hr]
      obtain ⟨h2, st2, h1⟩ := nDelete_ok_inv wn.1 wn.2 kp rng r hc hr
      refine ⟨by rw [h2]; exact hc, by rw [h2]; exact hs, ?_⟩
      intro j hj
      rw [h1]
      exact getStore_setStore_ne wn.1 wn.2.sid j st2
        (Nat.ne_of_gt (Nat.lt_of_lt_of_le hj hs))

theorem applyOps_frame (L : Nat) (wn : World × NodeRef) (ops : List TreeOp)
    (hc : wn.2.copied = false) (hs : L ≤ wn.2.sid) :
    ∀ j, j < L → getStore (applyOps wn ops).1 j = getStore wn.1 j := by
  induction ops generalizing wn with
  | nil => exact fun j hj => rfl
  | cons op rest ih =>
    intro j hj
    obtain ⟨hc1, hs1, hj1⟩ := applyOp_frame L wn op hc hs
    have hstep := ih (applyOp wn op) hc1 hs1 j hj
    calc getStore (applyOps wn (op :: rest)).1 j
        = getStore (applyOps (applyOp wn op) rest).1 j := rfl
      _ = getStore (applyOp wn op).1 j := hstep
      _ = getStore wn.1 j := hj1 j hj

theorem nCopyToMemory_shape (w : World) (t : NodeRef) (kp : Keypath) (w1 : World)
    (n : NodeRef) (ht : t.sid < w.length) (h : nCopyToMemory w t kp none = .ok (w1, n)) :
    (∃ X, w1 = w ++ [X]) ∧ n.sid = w.length ∧ n.copied = false := by
  unfold nCopyToMemory at h
  dsimp only [mergeRng] at h
  by_cases hi : rngInvalid t.rng = true
  · rw [if_pos hi] at h
    exact absurd h (by simp)
  · rw [if_neg hi] at h
    unfold makeCopy at h
    dsimp only at h
    cases hg : getStore w t.sid with
    | none =>
      have := getStore_isSome_of_lt w t.sid ht
      rw [hg] at this
      exact absurd this (by simp)
    | some st =>
      rw [hg] at h
      dsimp only at h
      have hh := Except.ok.inj h
      have hw1 : w ++ [copyStoreAt st (t.keypath ++ kp)] = w1 := congrArg Prod.fst hh
      have hn := congrArg Prod.snd hh
      dsimp only at hn
      refine ⟨⟨copyStoreAt st (t.keypath ++ kp), hw1.symm⟩, ?_, ?_⟩
      · rw [← hn]
      · rw [← hn]

/-- Claim C8: after a successful CopyToMemory, any sequence of Set and
Delete calls on the copy leaves everything readable through the
original node unchanged: its backing store, Exists, NodeInfo,
ContentLength and the diff. -/
theorem C8_copy_isolation (w : World) (t : NodeRef) (kp : Keypath) (w1 : World) (n : NodeRef)
    (ht : t.sid < w.length) (hcp : nCopyToMemory w t kp none = .ok (w1, n))
    (ops : List TreeOp) :
    getStore (applyOps (w1, n) ops).1 t.sid = getStore w t.sid ∧
    (∀ rk, nExists (applyOps (w1, n) ops).1 t rk = nExists w t rk) ∧
    nNodeInfo (applyOps (w1, n) ops).1 t = nNodeInfo w t ∧
    nContentLength (applyOps (w1, n) ops).1 t = nContentLength w t ∧
    nDiff (applyOps (w1, n) ops).1 t = nDiff w t := by
  obtain ⟨⟨X, hw1⟩, hsid, hcop⟩ := nCopyToMemory_shape w t kp w1 n ht hcp
  have hbase : getStore w1 t.sid = getStore w t.sid := by
    rw [hw1]
    exact getStore_append_left w [X] t.sid ht
  have hframe := applyOps_frame w.length (w1, n) ops hcop (by rw [hsid]) t.sid ht
  have hstore : getStore (applyOps (w1, n) ops).1 t.sid = getStore w t.sid := by
    rw [hframe]
    exact hbase
  refine ⟨hstore, ?_, ?_, ?_, ?_⟩
  · intro rk
    unfold nExists
    rw [hstore]
  · unfold nNodeInfo
    rw [hstore]
  · unfold nContentLength
    rw [hstore]
  · unfold nDiff
    rw [hstore]

/-- Witness for C8 at a concrete tree, copy and op sequence. -/
theorem C8_witness :
    getStore (applyOps (c8Copy.1, c8Copy.2) c8Ops).1 rootN.sid = getStore c8World rootN.sid ∧
    (∀ rk, nExists (applyOps (c8Copy.1, c8Copy.2) c8Ops).1 rootN rk =
      nExists c8World rootN rk) ∧
    nNodeInfo (applyOps (c8Copy.1, c8Copy.2) c8Ops).1 rootN = nNodeInfo c8World rootN ∧
    nContentLength (applyOps (c8Copy.1, c8Copy.2) c8Ops).1 rootN =
      nContentLength c8World rootN ∧
    nDiff (applyOps (c8Copy.1, c8Copy.2) c8Ops).1 rootN = nDiff c8World rootN :=
  C8_copy_isolation c8World rootN [Seg.str "a"] c8Copy.1 c8Copy.2 (by decide) (by rfl) c8Ops

theorem processLoop_step (cr : Crypto) (ext : MTx → Except PErr Unit) (s : CState)
    (h : (onePass cr ext s s.mempool).2.2 = true) :
    processLoop cr ext s = processLoop cr ext
      { (onePass cr ext s s.mempool).1 with mempool := (onePass cr ext s s.mempool).2.1 } := by
  rw [processLoop]
  rw [dif_pos h]

theorem processLoop_stop (cr : Crypto) (ext : MTx → Except PErr Unit) (s : CState)
    (h : (onePass cr ext s s.mempool).2.2 = false) :
    processLoop cr ext s =
      { (onePass cr ext s s.mempool).1 with mempool := (onePass cr ext s s.mempool).2.1 } := by
  rw [processLoop]
  rw [dif_neg (by simp [h])]

theorem processMempoolTx_ok_inv (cr : Crypto) (ext : MTx → Except PErr Unit) (s : CState)
    (tx : MTx) (s1 : CState) (h : processMempoolTx cr ext s tx = .ok s1) :
    s1 = { s with
            leaves := insert tx.id (tx.parents.foldl (fun l p => l.erase p) s.leaves),
            store := storePutL s.store { tx with Valid := true } } := by
  unfold processMempoolTx at h
  cases hv : validateTxIntrinsics cr s tx with
  | error e =>
    rw [hv] at h
    exact absurd h (by simp)
  | ok u =>
    cases u
    rw [hv] at h
    dsimp only at h
    cases he : ext tx with
    | error e =>
      rw [he] at h
      exact absurd h (by simp)
    | ok u2 =>
      cases u2
      rw [he] at h
      dsimp only at h
      exact (Except.ok.inj h).symm

theorem processMempoolTx_succeeds (cr : Crypto) (ext : MTx → Except PErr Unit) (s : CState)
    (tx : MTx) (hval : validateTxIntrinsics cr s tx = .ok ()) (hext : ext tx = .ok ()) :
    processMempoolTx cr ext s tx =
      .ok { s with
            leaves := insert tx.id (tx.parents.foldl (fun l p => l.erase p) s.leaves),
            store := storePutL s.store { tx with Valid := true } } := by
  unfold processMempoolTx
  rw [hval, hext]

theorem validateTxIntrinsics_ok (cr : Crypto) (s : CState) (tx : MTx)
    (h1 : tx.parents ≠ [] ∨ tx.id = genesisTxID)
    (h2 : ∀ p ∈ tx.parents,
      ∃ ptx, storeGet s p = some ptx ∧ (ptx.Valid = true ∨ p = genesisTxID))
    (h3 : tx.id ≠ genesisTxID → cryptoOK cr tx) :
    validateTxIntrinsics cr s tx = .ok () := by
  unfold validateTxIntrinsics
  have hcond : ¬ (tx.parents = [] ∧ tx.id ≠ genesisTxID) := by
    rintro ⟨he, hg⟩
    rcases h1 with hne | hgen
    · exact hne he
    · exact hg hgen
  rw [if_neg hcond]
  rw [(checkParents_ok_iff s tx.parents).mpr h2]
  dsimp only
  by_cases hgen : tx.id ≠ genesisTxID
  · rw [if_pos hgen]
    obtain ⟨pk, hpk, hver, haddr⟩ := h3 hgen
    rw [hpk]
    dsimp only
    rw [hver]
    simp [haddr]
  · rw [if_neg hgen]

theorem processMempoolTx_blocked (cr : Crypto) (ext : MTx → Except PErr Unit) (s : CState)
    (tx : MTx) (prev : TxID) (hpar : tx.parents = [prev]) (hprevg : prev ≠ genesisTxID)
    (hpv : isValidInB s prev = false) :
    processMempoolTx cr ext s tx = .error .noParentYet := by
  have hval : validateTxIntrinsics cr s tx = .error .noParentYet := by
    unfold validateTxIntrinsics
    rw [if_neg (by rw [hpar]; rintro ⟨he, -⟩; exact absurd he (by simp))]
    have hcp : checkParents s tx.parents = .error .noParentYet := by
      rw [hpar]
      unfold checkParents
      unfold isValidInB at hpv
      cases hg : storeGet s prev with
      | none => rfl
      | some ptx =>
        rw [hg] at hpv
        dsimp only at hpv ⊢
        rw [if_pos ⟨hpv, hprevg⟩]
    rw [hcp]
  unfold processMempoolTx
  rw [hval]

theorem isValidInB_set_mempool (s : CState) (m : List MTx) (i : TxID) :
    isValidInB { s with mempool := m } i = isValidInB s i := rfl

theorem isValidInB_after_put (s : CState) (L : Finset TxID) (tx : MTx) (i : TxID) :
    isValidInB { s with leaves := L, store := storePutL s.store { tx with Valid := true } } i =
      if i = tx.id then true else isValidInB s i := by
  unfold isValidInB storeGet
  dsimp only
  rw [storeGetL_put s.store { tx with Valid := true } i]
  dsimp only
  by_cases hi : i = tx.id
  · rw [if_pos hi, if_pos hi]
  · rw [if_neg hi, if_neg hi]

theorem onePass_fst_error (cr : Crypto) (ext : MTx → Except PErr Unit) (s : CState)
    (tx : MTx) (rest : List MTx) (e : PErr) (h : processMempoolTx cr ext s tx = .error e) :
    (onePass cr ext s (tx :: rest)).1 = (onePass cr ext s rest).1 := by
  cases he : e.isRetryable <;> simp [onePass, h, he]

theorem onePass_valid_mono (cr : Crypto) (ext : MTx → Except PErr Unit) :
    ∀ (l : List MTx) (s : CState) (i : TxID), isValidInB s i = true →
    isValidInB (onePass cr ext s l).1 i = true
  | [], _, _, hv => hv
  | tx :: rest, s, i, hv => by
    cases hp : processMempoolTx cr ext s tx with
    | error e =>
      cases he : e.isRetryable <;> simp [onePass, hp, he] <;>
        exact onePass_valid_mono cr ext rest s i hv
    | ok s1 =>
      simp only [onePass, hp]
      have hv1 : isValidInB s1 i = true := by
        rw [processMempoolTx_ok_inv cr ext s tx s1 hp]
        rw [isValidInB_after_put]
        by_cases hi : i = tx.id
        · rw [if_pos hi]
        · rw [if_neg hi]; exact hv
      exact onePass_valid_mono cr ext rest s1 i hv1

theorem processLoop_valid_mono (cr : Crypto) (ext : MTx → Except PErr Unit) (s : CState)
    (i : TxID) (hv : isValidInB s i = true) :
    isValidInB (processLoop cr ext s) i = true := by
  generalize hn : s.mempool.length = n
  induction n using Nat.strong_induction_on generalizing s with
  | _ n ih =>
    cases hb : (onePass cr ext s s.mempool).2.2 with
    | false =>
      rw [processLoop_stop cr ext s hb]
      exact onePass_valid_mono cr ext s.mempool s i hv
    | true =>
      rw [processLoop_step cr ext s hb]
      have hlt : (onePass cr ext s s.mempool).2.1.length < n := by
        rw [← hn]
        exact onePass_kept_lt cr ext s s.mempool hb
      exact ih _ hlt _
        (onePass_valid_mono cr ext s.mempool s i hv) rfl

/-- Counterexample to claim C1: in the trace where the child of a
still-pending genesis tx arrives first, the genesis exemption of
intrinsic validation lets the child validate before genesis; after
genesis itself validates, the genesis id sits in the leaves set even
though the validated child lists it as a parent, so the leaves set is
not the set of validated txs that no validated tx lists as a
parent. -/
theorem C1_counterexample :
    genesisTxID ∈ c1Run.leaves ∧
    isParentOfValidB c1Run genesisTxID = true ∧
    isValidInB c1Run genesisTxID = true ∧
    isValidInB c1Run bTx.id = true ∧
    ¬ leavesMatch c1Run := by
  have h1 : processLoop trivCrypto extOk c1sA = c1sB :=
    processLoop_stop trivCrypto extOk c1sA (by decide)
  have h2 : processLoop trivCrypto extOk (addTx c1sB gTx) =
      processLoop trivCrypto extOk c1sD :=
    processLoop_step trivCrypto extOk (addTx c1sB gTx) (by decide)
  have h3 : processLoop trivCrypto extOk c1sD = c1sE :=
    processLoop_stop trivCrypto extOk c1sD (by decide)
  have hrun : c1Run = c1sE := by
    unfold c1Run
    rw [h1, h2, h3]
  rw [hrun]
  refine ⟨by decide, by decide, by decide, by decide, ?_⟩
  intro hLM
  have hx := (hLM genesisTxID).mp (by decide)
  exact absurd hx.2 (by decide)

theorem storeGetL_isSome_of_mem : ∀ (st : List (TxID × MTx)) (q : TxID × MTx), q ∈ st →
    (storeGetL st q.1).isSome = true
  | [], q, hq => absurd hq (List.not_mem_nil q)
  | a :: rest, q, hq => by
    by_cases ha : a.1 = q.1
    · simp [storeGetL, ha]
    · rcases List.mem_cons.mp hq with rfl | hmem
      · exact absurd rfl ha
      · simp only [storeGetL, if_neg ha]
        exact storeGetL_isSome_of_mem rest q hmem

theorem storeGetL_of_mem_nodup : ∀ (st : List (TxID × MTx)) (q : TxID × MTx), q ∈ st →
    (st.map Prod.fst).Nodup → storeGetL st q.1 = some q.2
  | [], q, hq, _ => absurd hq (List.not_mem_nil q)
  | a :: rest, q, hq, hnd => by
    obtain ⟨hna, hndr⟩ := List.nodup_cons.mp hnd
    rcases List.mem_cons.mp hq with rfl | hmem
    · simp [storeGetL]
    · have hne : ¬ a.1 = q.1 := by
        intro he
        exact hna (he ▸ List.mem_map_of_mem Prod.fst hmem)
      simp only [storeGetL, if_neg hne]
      exact storeGetL_of_mem_nodup rest q hmem hndr

theorem mem_storeEraseL (st : List (TxID × MTx)) (k : TxID) (q : TxID × MTx) :
    q ∈ storeEraseL st k ↔ (q ∈ st ∧ q.1 ≠ k) := by
  induction st with
  | nil => simp [storeEraseL]
  | cons a rest ih =>
    by_cases ha : a.1 = k
    · rw [storeEraseL, if_pos ha, ih]
      constructor
      · rintro ⟨hm, hne⟩
        exact ⟨List.mem_cons_of_mem a hm, hne⟩
      · rintro ⟨hm, hne⟩
        rcases List.mem_cons.mp hm with rfl | hm2
        · exact absurd ha hne
        · exact ⟨hm2, hne⟩
    · rw [storeEraseL, if_neg ha, List.mem_cons, ih]
      constructor
      · rintro (rfl | ⟨hm, hne⟩)
        · exact ⟨List.mem_cons_self _ _, ha⟩
        · exact ⟨List.mem_cons_of_mem a hm, hne⟩
      · rintro ⟨hm, hne⟩
        rcases List.mem_cons.mp hm with rfl | hm2
        · exact Or.inl rfl
        · exact Or.inr ⟨hm2, hne⟩

theorem mem_storePutL (st : List (TxID × MTx)) (tx : MTx) (q : TxID × MTx) :
    q ∈ storePutL st tx ↔ (q = (tx.id, tx) ∨ (q ∈ st ∧ q.1 ≠ tx.id)) := by
  unfold storePutL
  rw [List.mem_cons, mem_storeEraseL]

theorem keys_storeEraseL_sublist (st : List (TxID × MTx)) (k : TxID) :
    ((storeEraseL st k).map Prod.fst).Sublist (st.map Prod.fst) := by
  induction st with
  | nil => simp [storeEraseL]
  | cons a rest ih =>
    by_cases ha : a.1 = k
    · rw [storeEraseL, if_pos ha, List.map_cons]
      exact ih.cons a.1
    · rw [storeEraseL, if_neg ha, List.map_cons, List.map_cons]
      exact ih.cons₂ a.1

theorem not_mem_keys_storeEraseL (st : List (TxID × MTx)) (k : TxID) :
    k ∉ (storeEraseL st k).map Prod.fst := by
  intro h
  obtain ⟨q, hq, hk⟩ := List.mem_map.mp h
  exact ((mem_storeEraseL st k q).mp hq).2 hk

theorem keys_storePutL_nodup (st : List (TxID × MTx)) (tx : MTx)
    (hnd : (st.map Prod.fst).Nodup) : ((storePutL st tx).map Prod.fst).Nodup := by
  unfold storePutL
  rw [List.map_cons]
  exact List.nodup_cons.mpr
    ⟨not_mem_keys_storeEraseL st tx.id, (keys_storeEraseL_sublist st tx.id).nodup hnd⟩

theorem isParentOfValidB_iff (s : CState) (i : TxID) :
    isParentOfValidB s i = true ↔ ∃ q, q ∈ s.store ∧ q.2.Valid = true ∧ i ∈ q.2.parents := by
  unfold isParentOfValidB
  rw [List.any_eq_true]
  constructor
  · rintro ⟨q, hq, hpq⟩
    rw [Bool.and_eq_true] at hpq
    exact ⟨q, hq, hpq.1, List.elem_iff.mp hpq.2⟩
  · rintro ⟨q, hq, hv, hm⟩
    exact ⟨q, hq, by rw [Bool.and_eq_true]; exact ⟨hv, List.elem_iff.mpr hm⟩⟩

theorem isValidInB_after_addTx (s : CState) (tx : MTx) (i : TxID)
    (hh : storeHas s tx.id = false) : isValidInB (addTx s tx) i = isValidInB s i := by
  unfold addTx
  rw [if_neg (by rw [hh]; exact Bool.false_ne_true)]
  unfold isValidInB storeGet
  dsimp only
  rw [storeGetL_put]
  dsimp only
  by_cases hi : i = tx.id
  · rw [if_pos hi, hi]
    unfold storeHas storeGet at hh
    cases hg : storeGetL s.store tx.id with
    | none => rfl
    | some t =>
      rw [hg] at hh
      exact absurd hh (by simp)
  · rw [if_neg hi]

theorem isParentOfValidB_after_addTx (s : CState) (tx : MTx) (i : TxID)
    (hh : storeHas s tx.id = false) :
    isParentOfValidB (addTx s tx) i = isParentOfValidB s i := by
  unfold addTx
  rw [if_neg (by rw [hh]; exact Bool.false_ne_true)]
  rw [Bool.eq_iff_iff]
  rw [isParentOfValidB_iff, isParentOfValidB_iff]
  constructor
  · rintro ⟨q, hq, hv, hm⟩
    have hq2 : q ∈ storePutL s.store { tx with Valid := false } := hq
    rcases (mem_storePutL s.store { tx with Valid := false } q).mp hq2 with hqe | ⟨hmem, -⟩
    · rw [hqe] at hv
      exact absurd hv (by simp)
    · exact ⟨q, hmem, hv, hm⟩
  · rintro ⟨q, hq, hv, hm⟩
    refine ⟨q, ?_, hv, hm⟩
    show q ∈ storePutL s.store { tx with Valid := false }
    apply (mem_storePutL _ _ _).mpr
    right
    refine ⟨hq, ?_⟩
    intro hqk
    have hsome := storeGetL_isSome_of_mem s.store q hq
    rw [hqk] at hsome
    unfold storeHas storeGet at hh
    rw [hsome] at hh
    exact absurd hh (by simp)

theorem isParentOfValidB_after_put (s : CState) (L : Finset TxID) (tx : MTx) (i : TxID)
    (hnd : storeKeysNodup s) (hinv : isValidInB s tx.id = false) :
    (isParentOfValidB { s with leaves := L, store := storePutL s.store { tx with Valid := true } } i = true ↔
      (i ∈ tx.parents ∨ isParentOfValidB s i = true)) := by
  rw [isParentOfValidB_iff, isParentOfValidB_iff]
  constructor
  · rintro ⟨q, hq, hv, hm⟩
    have hq2 : q ∈ storePutL s.store { tx with Valid := true } := hq
    rcases (mem_storePutL s.store { tx with Valid := true } q).mp hq2 with hqe | ⟨hmem, -⟩
    · rw [hqe] at hm
      exact Or.inl hm
    · exact Or.inr ⟨q, hmem, hv, hm⟩
  · rintro (hm | ⟨q, hq, hv, hm⟩)
    · refine ⟨(tx.id, { tx with Valid := true }), ?_, rfl, hm⟩
      exact (mem_storePutL _ _ _).mpr (Or.inl rfl)
    · refine ⟨q, ?_, hv, hm⟩
      show q ∈ storePutL s.store { tx with Valid := true }
      apply (mem_storePutL _ _ _).mpr
      right
      refine ⟨hq, ?_⟩
      intro hqk
      have hg := storeGetL_of_mem_nodup s.store q hq hnd
      rw [hqk] at hg
      unfold isValidInB storeGet at hinv
      rw [hg] at hinv
      dsimp only at hinv
      rw [hv] at hinv
      exact absurd hinv (by simp)

theorem mem_foldl_erase (ps : List TxID) (L : Finset TxID) (i : TxID) :
    i ∈ ps.foldl (fun l p => l.erase p) L ↔ (i ∈ L ∧ i ∉ ps) := by
  induction ps generalizing L with
  | nil => simp
  | cons p rest ih =>
    simp only [List.foldl_cons]
    rw [ih, Finset.mem_erase]
    constructor
    · rintro ⟨⟨hne, hmem⟩, hnot⟩
      refine ⟨hmem, ?_⟩
      simp only [List.mem_cons, not_or]
      exact ⟨hne, hnot⟩
    · rintro ⟨hmem, hnot⟩
      simp only [List.mem_cons, not_or] at hnot
      exact ⟨⟨hnot.1, hmem⟩, hnot.2⟩

theorem addTx_of_has (s : CState) (tx : MTx) (hh : storeHas s tx.id = true) :
    addTx s tx = s := by
  unfold addTx
  rw [if_pos hh]

theorem addTx_leaves (s : CState) (tx : MTx) : (addTx s tx).leaves = s.leaves := by
  unfold addTx
  split_ifs <;> rfl

theorem goodRun_inv (cr : Crypto) (ext : MTx → Except PErr Unit) (s : CState)
    (hr : GoodRun cr ext s) : storeKeysNodup s ∧ causalClosure s ∧ leavesMatch s := by
  induction hr with
  | init =>
    refine ⟨?_, ?_, ?_⟩
    · simp [storeKeysNodup, initialCState]
    · intro q hq
      exact absurd hq (List.not_mem_nil q)
    · intro i
      constructor
      · intro hmem
        exact absurd hmem (by simp [initialCState])
      · rintro ⟨hv, -⟩
        exact absurd hv (by simp [isValidInB, storeGet, initialCState, storeGetL])
  | addTxStep s tx hrun ih =>
    obtain ⟨hnd, hcl, hlv⟩ := ih
    by_cases hh : storeHas s tx.id = true
    · rw [addTx_of_has s tx hh]
      exact ⟨hnd, hcl, hlv⟩
    · have hh2 : storeHas s tx.id = false := by
        cases hb : storeHas s tx.id
        · rfl
        · exact absurd hb hh
      have hne : ¬ storeHas s tx.id = true := by
        rw [hh2]
        exact Bool.false_ne_true
      refine ⟨?_, ?_, ?_⟩
      · show ((addTx s tx).store.map Prod.fst).Nodup
        unfold addTx
        rw [if_neg hne]
        exact keys_storePutL_nodup s.store { tx with Valid := false } hnd
      · intro q hq hv p hp
        have hq2 : q ∈ storePutL s.store { tx with Valid := false } := by
          revert hq
          unfold addTx
          rw [if_neg hne]
          exact id
        rw [isValidInB_after_addTx s tx p hh2]
        rcases (mem_storePutL _ _ _).mp hq2 with hqe | ⟨hmem, -⟩
        · rw [hqe] at hv
          exact absurd hv (by simp)
        · exact hcl q hmem hv p hp
      · intro i
        rw [addTx_leaves, isValidInB_after_addTx s tx i hh2,
          isParentOfValidB_after_addTx s tx i hh2]
        exact hlv i
  | processStep s s1 tx hrun hpar hinvS hok ih =>
    obtain ⟨hnd, hcl, hlv⟩ := ih
    have hs1 := processMempoolTx_ok_inv cr ext s tx s1 hok
    subst hs1
    refine ⟨?_, ?_, ?_⟩
    · exact keys_storePutL_nodup s.store { tx with Valid := true } hnd
    · intro q hq hv p hp
      have hq2 : q ∈ storePutL s.store { tx with Valid := true } := hq
      rw [isValidInB_after_put]
      by_cases hpid : p = tx.id
      · rw [if_pos hpid]
      · rw [if_neg hpid]
        rcases (mem_storePutL _ _ _).mp hq2 with hqe | ⟨hmem, -⟩
        · rw [hqe] at hp
          exact hpar p hp
        · exact hcl q hmem hv p hp
    · intro i
      have hput := isParentOfValidB_after_put s (insert tx.id (tx.parents.foldl (fun l p => l.erase p) s.leaves)) tx i hnd hinvS
      have hputF : (isParentOfValidB { s with leaves := insert tx.id (tx.parents.foldl (fun l p => l.erase p) s.leaves), store := storePutL s.store { tx with Valid := true } } i = false) ↔ (i ∉ tx.parents ∧ isParentOfValidB s i = false) := by
        constructor
        · intro hf
          constructor
          · intro hm
            have hx := hput.mpr (Or.inl hm)
            rw [hf] at hx
            exact absurd hx (by simp)
          · cases hb : isParentOfValidB s i
            · rfl
            · have hx := hput.mpr (Or.inr hb)
              rw [hf] at hx
              exact absurd hx (by simp)
        · rintro ⟨hm, hb⟩
          cases hc : isParentOfValidB { s with leaves := insert tx.id (tx.parents.foldl (fun l p => l.erase p) s.leaves), store := storePutL s.store { tx with Valid := true } } i
          · rfl
          · rcases hput.mp hc with h1 | h1
            · exact absurd h1 hm
            · rw [h1] at hb
              exact absurd hb (by simp)
      constructor
      · intro hmem
        have hmem2 : i = tx.id ∨ (i ∈ s.leaves ∧ i ∉ tx.parents) := by
          have h0 : i ∈ insert tx.id (tx.parents.foldl (fun l p => l.erase p) s.leaves) := hmem
          rcases Finset.mem_insert.mp h0 with he | h1
          · exact Or.inl he
          · exact Or.inr ((mem_foldl_erase _ _ _).mp h1)
        rw [isValidInB_after_put]
        rcases hmem2 with rfl | ⟨hl, hnp⟩
        · refine ⟨by rw [if_pos rfl], ?_⟩
          apply hputF.mpr
          constructor
          · intro hm
            have hvp := hpar tx.id hm
            rw [hvp] at hinvS
            exact absurd hinvS (by simp)
          · cases hb : isParentOfValidB s tx.id
            · rfl
            · obtain ⟨q, hqm, hqv, hqp⟩ := (isParentOfValidB_iff s tx.id).mp hb
              have hvv := hcl q hqm hqv tx.id hqp
              rw [hvv] at hinvS
              exact absurd hinvS (by simp)
        · obtain ⟨hv1, hp1⟩ := (hlv i).mp hl
          by_cases hi : i = tx.id
          · rw [hi] at hv1
            rw [hv1] at hinvS
            exact absurd hinvS (by simp)
          · exact ⟨by rw [if_neg hi]; exact hv1, hputF.mpr ⟨hnp, hp1⟩⟩
      · rintro ⟨hval, hpar2⟩
        rw [isValidInB_after_put] at hval
        have hparts := hputF.mp hpar2
        show i ∈ insert tx.id (tx.parents.foldl (fun l p => l.erase p) s.leaves)
        by_cases hi : i = tx.id
        · rw [hi]
          exact Finset.mem_insert_self _ _
        · rw [if_neg hi] at hval
          apply Finset.mem_insert.mpr
          right
          apply (mem_foldl_erase _ _ _).mpr
          exact ⟨(hlv i).mpr ⟨hval, hparts.2⟩, hparts.1⟩

/-- Counterexample to claim C10: in the copy returned by CopyToMemory,
makeCopy has inserted a (nil interface) values entry for every copied
keypath, so Exists at the map keypath "a" returns true even though
NodeInfo reports NodeTypeMap for it. -/
theorem C10_counterexample :
    nExists c10Copy.1 c10Copy.2 [Seg.str "a"] = true ∧
    nNodeInfo c10Copy.1 (nAtKeypath c10Copy.2 [Seg.str "a"] none) =
      .ok (NodeType.map, ValueType.invalid, 0) := by
  exact ⟨rfl, rfl⟩


/-- Claim C1 (amended): in every run in which each successfully
processed tx had all its parents already valid and was not yet valid
itself — the discipline stated by the spec, which the code breaks only
through the genesis exemption refuted separately — the leaves set
equals the set of validated txs that no validated tx lists as a
parent; and every single successful processMempoolTx removes the tx's
parents from the leaves set and inserts the tx's own id. -/
theorem C1_leaves_law (cr : Crypto) (ext : MTx → Except PErr Unit) (s : CState)
    (hr : GoodRun cr ext s) :
    leavesMatch s ∧
    ∀ (s0 s1 : CState) (tx : MTx), processMempoolTx cr ext s0 tx = .ok s1 →
      s1.leaves = insert tx.id (tx.parents.foldl (fun l p => l.erase p) s0.leaves) ∧
      tx.id ∈ s1.leaves ∧
      ∀ p ∈ tx.parents, p ≠ tx.id → p ∉ s1.leaves := by
  refine ⟨(goodRun_inv cr ext s hr).2.2, ?_⟩
  intro s0 s1 tx hok
  have h := processMempoolTx_ok_inv cr ext s0 tx s1 hok
  rw [h]
  dsimp only
  refine ⟨rfl, Finset.mem_insert_self _ _, ?_⟩
  intro p hp hne hmem
  rcases Finset.mem_insert.mp hmem with he | hm
  · exact hne he
  · exact ((mem_foldl_erase _ _ _).mp hm).2 hp

/-- Witness for C1_leaves_law: the two-step run that adds the genesis
tx and processes it successfully satisfies the GoodRun discipline, so
its final state obeys the leaves law. -/
theorem C1_witness :
    leavesMatch c1GoodB ∧
    ∀ (s0 s1 : CState) (tx : MTx), processMempoolTx trivCrypto extOk s0 tx = .ok s1 →
      s1.leaves = insert tx.id (tx.parents.foldl (fun l p => l.erase p) s0.leaves) ∧
      tx.id ∈ s1.leaves ∧
      ∀ p ∈ tx.parents, p ≠ tx.id → p ∉ s1.leaves :=
  C1_leaves_law trivCrypto extOk c1GoodB
    (GoodRun.processStep c1GoodA c1GoodB gTx
      (GoodRun.addTxStep initialCState gTx GoodRun.init)
      (by intro p hp; simp [gTx] at hp)
      (by decide)
      (by rfl))


theorem valid_storeGet (s : CState) (p : TxID) (hv : isValidInB s p = true) :
    ∃ ptx, storeGet s p = some ptx ∧ (ptx.Valid = true ∨ p = genesisTxID) := by
  unfold isValidInB at hv
  cases hg : storeGet s p with
  | none => rw [hg] at hv; exact absurd hv (by simp)
  | some ptx =>
    rw [hg] at hv
    dsimp only at hv
    exact ⟨ptx, rfl, Or.inl hv⟩

theorem chain_pred : ∀ (c : MTx) (rest : List MTx), isChainFrom c.id rest →
    ∀ q ∈ rest, ∃ prev, prev ∈ c :: rest ∧ q.parents = [prev.id] := by
  intro c rest
  induction rest generalizing c with
  | nil => intro _ q hq; exact absurd hq (List.not_mem_nil q)
  | cons d rest2 ih =>
    intro hch q hq
    have hch2 : d.parents = [c.id] ∧ isChainFrom d.id rest2 := hch
    rcases List.mem_cons.mp hq with rfl | hq2
    · exact ⟨c, List.mem_cons_self _ _, hch2.1⟩
    · obtain ⟨prev, hprev, hpe⟩ := ih d hch2.2 q hq2
      rcases List.mem_cons.mp hprev with rfl | hp2
      · exact ⟨prev, List.mem_cons_of_mem _ (List.mem_cons_self _ _), hpe⟩
      · exact ⟨prev, List.mem_cons_of_mem _ (List.mem_cons_of_mem _ hp2), hpe⟩

theorem onePass_blocked_append (cr : Crypto) (ext : MTx → Except PErr Unit) :
    ∀ (l : List MTx) (s : CState) (tx : MTx) (s1 : CState),
    (∀ u ∈ l, ∃ e, processMempoolTx cr ext s u = .error e ∧ e.isRetryable = true) →
    processMempoolTx cr ext s tx = .ok s1 →
    onePass cr ext s (l ++ [tx]) = (s1, l, true) := by
  intro l
  induction l with
  | nil =>
    intro s tx s1 _ hok
    simp [onePass, hok]
  | cons u rest ih =>
    intro s tx s1 hblk hok
    obtain ⟨e, he, her⟩ := hblk u (List.mem_cons_self u rest)
    have hrec := ih s tx s1 (fun v hv => hblk v (List.mem_cons_of_mem u hv)) hok
    simp [onePass, he, her, hrec]

theorem isValidInB_put_mem (s : CState) (L : Finset TxID) (M : List MTx) (tx : MTx) (i : TxID) :
    isValidInB { s with leaves := L, store := storePutL s.store { tx with Valid := true }, mempool := M } i =
      if i = tx.id then true else isValidInB s i := by
  unfold isValidInB storeGet
  dsimp only
  rw [storeGetL_put s.store { tx with Valid := true } i]
  dsimp only
  by_cases hi : i = tx.id
  · rw [if_pos hi, if_pos hi]
  · rw [if_neg hi, if_neg hi]

theorem chainConverges (cr : Crypto) (ext : MTx → Except PErr Unit) :
    ∀ (txs : List MTx) (s : CState) (p : TxID),
    isValidInB s p = true →
    isChainFrom p txs →
    (∀ tx ∈ txs, tx.id ≠ genesisTxID) →
    (∀ tx ∈ txs, isValidInB s tx.id = false) →
    (∀ tx ∈ txs, cryptoOK cr tx) →
    (∀ tx ∈ txs, ext tx = .ok ()) →
    (txs.map (fun t => t.id)).Nodup →
    s.mempool = txs.reverse →
    ∀ tx ∈ txs, isValidInB (processLoop cr ext s) tx.id = true := by
  intro txs
  induction txs with
  | nil =>
    intro s p _ _ _ _ _ _ _ _ tx htx
    exact absurd htx (List.not_mem_nil tx)
  | cons c rest ih =>
    intro s p hpv hch hg hnv hcr hext hnd hmp
    have hchE : c.parents = [p] ∧ isChainFrom c.id rest := hch
    rw [List.map_cons, List.nodup_cons] at hnd
    have hval : validateTxIntrinsics cr s c = .ok () := by
      apply validateTxIntrinsics_ok
      · left
        rw [hchE.1]
        simp
      · intro q hq
        rw [hchE.1] at hq
        rw [List.mem_singleton] at hq
        subst hq
        exact valid_storeGet s q hpv
      · intro _
        exact hcr c (List.mem_cons_self _ _)
    have hok := processMempoolTx_succeeds cr ext s c hval (hext c (List.mem_cons_self _ _))
    have hblk : ∀ u ∈ rest.reverse,
        ∃ e, processMempoolTx cr ext s u = .error e ∧ e.isRetryable = true := by
      intro u hu
      rw [List.mem_reverse] at hu
      obtain ⟨prev, hprevmem, hupar⟩ := chain_pred c rest hchE.2 u hu
      exact ⟨.noParentYet,
        processMempoolTx_blocked cr ext s u prev.id hupar (hg prev hprevmem) (hnv prev hprevmem),
        rfl⟩
    have hmp2 : s.mempool = rest.reverse ++ [c] := by rw [hmp, List.reverse_cons]
    have hone := onePass_blocked_append cr ext rest.reverse s c _ hblk hok
    have hflag : (onePass cr ext s s.mempool).2.2 = true := by rw [hmp2, hone]
    rw [processLoop_step cr ext s hflag, hmp2, hone]
    dsimp only
    intro tx htx
    rcases List.mem_cons.mp htx with rfl | htx2
    · exact processLoop_valid_mono cr ext _ tx.id
        (by rw [isValidInB_put_mem]; rw [if_pos rfl])
    · refine ih _ c.id ?_ hchE.2 ?_ ?_ ?_ ?_ ?_ ?_ tx htx2
      · rw [isValidInB_put_mem]
        rw [if_pos rfl]
      · intro u hu
        exact hg u (List.mem_cons_of_mem _ hu)
      · intro u hu
        have hne : u.id ≠ c.id := by
          intro he
          exact hnd.1 (he ▸ List.mem_map_of_mem (fun t => t.id) hu)
        rw [isValidInB_put_mem]
        rw [if_neg hne]
        exact hnv u (List.mem_cons_of_mem _ hu)
      · intro u hu
        exact hcr u (List.mem_cons_of_mem _ hu)
      · intro u hu
        exact hext u (List.mem_cons_of_mem _ hu)
      · exact hnd.2
      · rfl

/-- Claim C5: in each mempool pass a tx failing with a retryable error
(exactly ErrNoParentYet and ErrMissingCriticalRefs) is retained for
retry, a tx failing with any other error is dropped, and a
successfully processed tx is removed with the success flag set; the
loop repeats while a pass had a success and stops otherwise; and a
single valid arrival unblocks a whole dependent chain: every tx of the
chain is valid after processMempool returns. -/
theorem C5_mempool (cr : Crypto) (ext : MTx → Except PErr Unit) :
    (∀ (s : CState) (tx : MTx) (rest : List MTx) (e : PErr),
      processMempoolTx cr ext s tx = .error e → e.isRetryable = true →
      onePass cr ext s (tx :: rest) =
        ((onePass cr ext s rest).1, tx :: (onePass cr ext s rest).2.1,
          (onePass cr ext s rest).2.2)) ∧
    (∀ (s : CState) (tx : MTx) (rest : List MTx) (e : PErr),
      processMempoolTx cr ext s tx = .error e → e.isRetryable = false →
      onePass cr ext s (tx :: rest) = onePass cr ext s rest) ∧
    (∀ (s : CState) (tx : MTx) (rest : List MTx) (s1 : CState),
      processMempoolTx cr ext s tx = .ok s1 →
      onePass cr ext s (tx :: rest) =
        ((onePass cr ext s1 rest).1, (onePass cr ext s1 rest).2.1, true)) ∧
    (∀ e : PErr, e.isRetryable = true ↔ (e = .noParentYet ∨ e = .missingCriticalRefs)) ∧
    (∀ s : CState, (onePass cr ext s s.mempool).2.2 = true →
      processLoop cr ext s = processLoop cr ext
        { (onePass cr ext s s.mempool).1 with mempool := (onePass cr ext s s.mempool).2.1 }) ∧
    (∀ s : CState, (onePass cr ext s s.mempool).2.2 = false →
      processLoop cr ext s =
        { (onePass cr ext s s.mempool).1 with mempool := (onePass cr ext s s.mempool).2.1 }) ∧
    (∀ (txs : List MTx) (s : CState) (p : TxID),
      isValidInB s p = true →
      isChainFrom p txs →
      (∀ tx ∈ txs, tx.id ≠ genesisTxID) →
      (∀ tx ∈ txs, isValidInB s tx.id = false) →
      (∀ tx ∈ txs, cryptoOK cr tx) →
      (∀ tx ∈ txs, ext tx = .ok ()) →
      (txs.map (fun t => t.id)).Nodup →
      s.mempool = txs.reverse →
      ∀ tx ∈ txs, isValidInB (processLoop cr ext s) tx.id = true) := by
  refine ⟨?_, ?_, ?_, ?_, ?_, ?_, ?_⟩
  · intro s tx rest e h he
    simp [onePass, h, he]
  · intro s tx rest e h he
    simp [onePass, h, he]
  · intro s tx rest s1 h
    simp [onePass, h]
  · intro e
    cases e <;> decide
  · intro s h
    exact processLoop_step cr ext s h
  · intro s h
    exact processLoop_stop cr ext s h
  · exact chainConverges cr ext

/-- Witness for C5_mempool: from a state whose store already holds the
valid tx 1 and whose mempool holds the dependent chain tx 2 → tx 3 in
blocking order, the mempool loop validates the whole chain. -/
theorem C5_witness :
    isValidInB (processLoop trivCrypto extOk c5Start) cTx2.id = true ∧
    isValidInB (processLoop trivCrypto extOk c5Start) cTx3.id = true := by
  constructor
  · exact (C5_mempool trivCrypto extOk).2.2.2.2.2.2 [cTx2, cTx3] c5Start 1 (by decide)
      ⟨rfl, rfl, trivial⟩ (by decide) (by decide)
      (by intro tx htx
          rcases List.mem_cons.mp htx with rfl | htx2
          · exact ⟨0, rfl, rfl, rfl⟩
          · rcases List.mem_cons.mp htx2 with rfl | htx3
            · exact ⟨0, rfl, rfl, rfl⟩
            · exact absurd htx3 (List.not_mem_nil tx))
      (fun _ _ => rfl) (by decide) rfl cTx2 (List.mem_cons_self _ _)
  · exact (C5_mempool trivCrypto extOk).2.2.2.2.2.2 [cTx2, cTx3] c5Start 1 (by decide)
      ⟨rfl, rfl, trivial⟩ (by decide) (by decide)
      (by intro tx htx
          rcases List.mem_cons.mp htx with rfl | htx2
          · exact ⟨0, rfl, rfl, rfl⟩
          · rcases List.mem_cons.mp htx2 with rfl | htx3
            · exact ⟨0, rfl, rfl, rfl⟩
            · exact absurd htx3 (List.not_mem_nil tx))
      (fun _ _ => rfl) (by decide) rfl cTx3 (List.mem_cons_of_mem _ (List.mem_cons_self _ _))

end Redwood
